import Mathlib

/-!
# Verification of the pydeltasnow segment/gap preprocessing pipeline

A shallow embedding, in Lean 4, of the gap/segment preprocessing code of the
pydeltasnow repository (`src/pydeltasnow/utils.py` and
`src/pydeltasnow/main.py`), together with proofs of the behavioural claims
made by the natural-language specification of that code.

## Modelling conventions

* A snow-depth observation (a float that may be NaN) is modelled as
  `Option ℚ`: `none` stands for NaN / a missing value, `some q` for the
  real number `q`.  Under IEEE semantics, `x == 0.0` is false when `x` is
  NaN and `x != 0.0` is true when `x` is NaN; these are modelled by
  `v = some 0` and `¬ (v = some 0)` respectively, which have exactly these
  truth values at `v = none`.
* Timestamps (`np.datetime64[ns]` values) are modelled as `ℤ`
  (nanoseconds); a timedelta divided by `ONE_HOUR` becomes division by
  `3600 * 10^9` in `ℚ`.
* Arrays are modelled as `List`s, with `hget` as the (guarded) index
  operation.  Every index access performed by the Python source is
  guarded by a bound check in the source loop, with two exceptions that
  are modelled explicitly: the unconditional `Hobs[0]` accesses (which
  raise `IndexError` on an empty array) and the `Hobs[i-1]` access at
  `i = 0` in `get_small_gap_idxs` (Python wraps to the last element).
* Python exceptions are modelled with `Except PdsErr`: the code under
  `src/` raises `ValueError` for data violations, uses `assert`
  (`AssertionError`) for the unit checks, reads the never-assigned local
  `resolution` on the short-input path of `continuous_timedeltas`
  (`UnboundLocalError`), and indexes `res[0]` on a possibly empty array
  (`IndexError`).
* The snowpack evolution engine (`pydeltasnow.core`, not part of the
  preprocessing code under verification) and the numeric interpolation of
  `pd.Series.interpolate` are external collaborators; the pipeline model
  is parametrised by them, and every theorem about the pipeline holds for
  an arbitrary engine and interpolator.
-/

/-- Error values a `swe_delta_snow` call can surface, one constructor per
`raise`/failure site of `src/pydeltasnow/main.py` and
`src/pydeltasnow/utils.py`. -/
inductive PdsErr where
  /-- `AssertionError` from `assert hs_input_unit in UNIT_FACTOR.keys()`. -/
  | assertHsUnit : PdsErr
  /-- `AssertionError` from `assert swe_output_unit in UNIT_FACTOR.keys()`. -/
  | assertSweUnit : PdsErr
  /-- `ValueError`: data must be pd.DataFrame or pd.Series. -/
  | valueDataType : PdsErr
  /-- `ValueError`: pd.Series needs pd.DatetimeIndex as index. -/
  | valueSeriesIndex : PdsErr
  /-- `ValueError`: data must contain columns 'hs' and 'date'. -/
  | valueColumns : PdsErr
  /-- `ValueError`: snow depth data must not be NaN. -/
  | valueNanStrict : PdsErr
  /-- `ValueError`: your data contains NaNs surrounded by non-zeros. -/
  | valueNanZeropadded : PdsErr
  /-- `ValueError`: your data contains gaps at the end or beginning … -/
  | valueNanInterp : PdsErr
  /-- `ValueError`: snow depth data must be positive. -/
  | valueNegative : PdsErr
  /-- `ValueError`: snow depth data must be numeric. -/
  | valueNumeric : PdsErr
  /-- `ValueError`: snow depth observations must start with 0 … -/
  | valueInitialCond : PdsErr
  /-- `ValueError`: date column must be strictly regular within chunks … -/
  | valueIrregular : PdsErr
  /-- `UnboundLocalError`: `resolution` referenced before assignment in
  `continuous_timedeltas` when `len(dr) <= 1`. -/
  | unboundLocal : PdsErr
  /-- `IndexError`: out-of-bounds element access (`Hobs[0]` on an empty
  series, `res[0]` on an empty per-chunk resolution array). -/
  | indexError : PdsErr
deriving DecidableEq, Repr

/-- Whether an error is a `ValueError` (as opposed to an `AssertionError`,
`UnboundLocalError` or `IndexError`). -/
def PdsErr.isValueError : PdsErr → Bool
  | .valueDataType | .valueSeriesIndex | .valueColumns | .valueNanStrict
  | .valueNanZeropadded | .valueNanInterp | .valueNegative | .valueNumeric
  | .valueInitialCond | .valueIrregular => true
  | _ => false

/-- Whether an error is an `AssertionError` (the two unit `assert`s). -/
def PdsErr.isAssertionError : PdsErr → Bool
  | .assertHsUnit | .assertSweUnit => true
  | _ => false

/-- Guarded list indexing: `hget H i` is `H[i]` for `i < H.length`
(and the junk value `none` out of range; every use is bound-guarded). -/
def hget (H : List (Option ℚ)) (i : ℕ) : Option ℚ := H.getD i none

/-- Timestamp indexing (timestamps are `ℤ` nanoseconds, junk `0` out of
range; every use is bound-guarded). -/
def tget (dr : List ℤ) (i : ℕ) : ℤ := dr.getD i 0

/-- The Python slice `l[a:b]` on a list. -/
def pyslice {α : Type} (l : List α) (a b : ℕ) : List α :=
  (l.drop a).take (b - a)

/-! ## Regularity Checker (`utils.continuous_timedeltas`) -/

/-- The consecutive differences `tdeltas[i] = dr[i+1] - dr[i]` computed by
`continuous_timedeltas`. -/
def tdeltas (dr : List ℤ) : List ℤ :=
  List.zipWith (fun a b => b - a) dr dr.tail

/-- `np.timedelta64(1, 'h')` in nanoseconds. -/
def ONE_HOUR : ℤ := 3600 * 1000000000

/-- The boolean `continuous = np.all(tdeltas == tdeltas[0])` computed by
`continuous_timedeltas` (also `True` on the `len(dr) <= 1` branch, where
the source assigns `continuous = True`). -/
def continuousB (dr : List ℤ) : Bool :=
  match tdeltas dr with
  | [] => true
  | d :: ds => (d :: ds).all (fun x => x = d)

/-- Shallow embedding of `utils.continuous_timedeltas`.  On the
`len(dr) <= 1` branch the source sets `continuous = True` but never
assigns the local variable `resolution`, so the final
`return continuous, resolution` fails (`UnboundLocalError` under plain
Python; numba cannot produce a value for it either); this failure is the
`.error .unboundLocal` case.  Otherwise it returns the pair
`(continuous, tdeltas[0] / ONE_HOUR)` (the division of a timedelta by the
one-hour timedelta is exact, `Rat.divInt`). -/
def continuous_timedeltas (dr : List ℤ) : Except PdsErr (Bool × ℚ) :=
  match tdeltas dr with
  | [] => .error .unboundLocal
  | d :: _ => .ok (continuousB dr, Rat.divInt d ONE_HOUR)

/-! ## Chunk Segmenter (`utils.get_nonzero_chunk_idxs`)

The source indexes `Hobs[0]` unconditionally, so an empty array is outside
its domain (it would raise `IndexError`); the embedding is total, and all
theorems about it are stated for nonempty input. -/

/-- The loop condition `Hobs[i] == 0. and Hobs[i+1] != 0` of
`get_nonzero_chunk_idxs` (a chunk start recorded at the zero immediately
before a rise out of zero). -/
def startPred (H : List (Option ℚ)) (i : ℕ) : Bool :=
  hget H i = some 0 ∧ ¬ (hget H (i + 1) = some 0)

/-- The loop condition `Hobs[i] == 0. and Hobs[i-1] != 0` of
`get_nonzero_chunk_idxs` (a chunk stop recorded at the first zero after a
nonzero run). -/
def stopPred (H : List (Option ℚ)) (i : ℕ) : Bool :=
  hget H i = some 0 ∧ ¬ (hget H (i - 1) = some 0)

/-- The `start_idxs` list built by `get_nonzero_chunk_idxs`: the loop
appends `i` whenever `i < len(Hobs)-1` and `startPred` holds, preceded by
`0` when `Hobs[0] != 0`. -/
def startIdxsOf (H : List (Option ℚ)) : List ℕ :=
  (if ¬ (hget H 0 = some 0) then [0] else []) ++
    (List.range (H.length - 1)).filter (startPred H)

/-- The `stop_idxs` list built by the loop of `get_nonzero_chunk_idxs`
(before the trailing fix-up): the loop appends `i` whenever `i > 0` and
`stopPred` holds. -/
def stopIdxs0 (H : List (Option ℚ)) : List ℕ :=
  (List.range H.length).filter (fun i => 0 < i ∧ stopPred H i = true)

/-- Shallow embedding of `utils.get_nonzero_chunk_idxs`: the pair
`(start_idxs, stop_idxs)`, where `len(Hobs)` is appended as a last stop
when the loop produced fewer stops than starts (`if len(stop_idxs) <
len(start_idxs)`). -/
def get_nonzero_chunk_idxs (H : List (Option ℚ)) : List ℕ × List ℕ :=
  let starts := startIdxsOf H
  let stops := stopIdxs0 H
  (starts, if stops.length < starts.length then stops ++ [H.length] else stops)

/-! ## Chunked Regularity Checker
(`utils.continuous_timedeltas_in_nonzero_chunks`) -/

/-- Shallow embedding of `utils.continuous_timedeltas_in_nonzero_chunks`.
The source preallocates `cont`/`res` of length `len(start_idxs)` and fills
them along `zip(start_idxs, stop_idxs)` by calling `continuous_timedeltas`
on each chunk's timestamp slice (a chunk of fewer than two timestamps
makes that call fail, and the failure propagates); entries beyond the zip
keep their `np.zeros` defaults `False`/`0.0`.  It then computes
`continuous = np.all([np.all(cont), np.all(res == res[0])])` and returns
`(continuous, res[0])`; `res[0]` on an empty `res` (no chunks at all) is
an out-of-bounds access, modelled as `IndexError`. -/
def continuous_timedeltas_in_nonzero_chunks (dr : List ℤ)
    (start_idxs stop_idxs : List ℕ) : Except PdsErr (Bool × ℚ) := do
  let pairs := start_idxs.zip stop_idxs
  let filled ← pairs.mapM (fun p => continuous_timedeltas (pyslice dr p.1 p.2))
  let cont : List Bool :=
    filled.map Prod.fst ++ List.replicate (start_idxs.length - pairs.length) false
  let res : List ℚ :=
    filled.map Prod.snd ++ List.replicate (start_idxs.length - pairs.length) 0
  match res with
  | [] => .error .indexError
  | r0 :: _ => .ok ((cont.all (fun c => c) && res.all (fun r => r = r0) : Bool), r0)

/-! ## Gap Classifier, zero-padded variant
(`utils.get_zeropadded_gap_idxs`, the one-parameter function in `src/`,
which requires a leading zero: it is the classification used when
`ignore_zeropadded_gaps` is set and `ignore_trailingzero_gaps` is not).

The loop body maintains `start_idxs`, `stop_idxs`, a flag `gap` and the
current run start `start`; the embedding keeps that state in `ZpState`
and performs one `zpStep` per index, in the source's statement order. -/

/-- Loop state of `get_zeropadded_gap_idxs`. -/
structure ZpState where
  startIdxs : List ℕ
  stopIdxs : List ℕ
  gap : Bool
  start : ℕ
deriving Repr

/-- First `if` of the loop body of `get_zeropadded_gap_idxs`: a gap opens
at index 0 when the series starts with NaN. -/
def zpStepA (H : List (Option ℚ)) (i : ℕ) (st : ZpState) : ZpState :=
  if i = 0 ∧ hget H i = none then { st with start := i, gap := true } else st

/-- Second `if`: a gap opens at `i` when `Hobs[i]` is NaN after a zero. -/
def zpStepB (H : List (Option ℚ)) (i : ℕ) (st : ZpState) : ZpState :=
  if 0 < i ∧ hget H i = none ∧ hget H (i - 1) = some 0 then
    { st with start := i, gap := true } else st

/-- Third `if`: when `Hobs[i]` is NaN just before a zero and a gap is
open, record the pair `(start, i+1)`. -/
def zpStepC (H : List (Option ℚ)) (i : ℕ) (st : ZpState) : ZpState :=
  if i + 1 < H.length ∧ hget H i = none ∧ hget H (i + 1) = some 0 ∧ st.gap then
    { st with startIdxs := st.startIdxs ++ [st.start], stopIdxs := st.stopIdxs ++ [i + 1] }
  else st

/-- Fourth `if`: a present value closes any open gap. -/
def zpStepD (H : List (Option ℚ)) (i : ℕ) (st : ZpState) : ZpState :=
  if ¬ (hget H i = none) then { st with gap := false } else st

/-- One iteration of the loop of `get_zeropadded_gap_idxs` at index `i`
(the four `if` statements of the body, in source order). -/
def zpStep (H : List (Option ℚ)) (st : ZpState) (i : ℕ) : ZpState :=
  zpStepD H i (zpStepC H i (zpStepB H i (zpStepA H i st)))

/-- The state after the whole loop of `get_zeropadded_gap_idxs`
(initially `start = len(Hobs)`, `gap = False`, empty index lists). -/
def zpLoop (H : List (Option ℚ)) : ZpState :=
  (List.range H.length).foldl (zpStep H) ⟨[], [], false, H.length⟩

/-- The post-loop fix-up of `get_zeropadded_gap_idxs`: when the series
ends inside a gap, append a last `(start, len(Hobs))` pair — unless
`start` already equals the last recorded start, in which case only the
`start < len(Hobs)` guard of the `elif` branch applies. -/
def zpFinish (n : ℕ) (st : ZpState) : List ℕ × List ℕ :=
  if st.gap then
    if 0 < st.startIdxs.length ∧ ¬ (st.start = st.startIdxs.getLastD 0) then
      (st.startIdxs ++ [st.start], st.stopIdxs ++ [n])
    else if st.start < n then
      (st.startIdxs ++ [st.start], st.stopIdxs ++ [n])
    else (st.startIdxs, st.stopIdxs)
  else (st.startIdxs, st.stopIdxs)

/-- `zeropadded_gap_idxs[start_i:stop_i] = True` for every recorded pair,
over an all-`False` array of length `n`. -/
def markRanges (n : ℕ) (pairs : List (ℕ × ℕ)) : List Bool :=
  (List.range n).map (fun j => pairs.any (fun p => p.1 ≤ j ∧ j < p.2))

/-- Shallow embedding of `utils.get_zeropadded_gap_idxs` (the
one-parameter strict variant in `src/`): the boolean mask of NaN runs
whose left neighbour is zero (or which start the series) and whose right
neighbour is zero (or which end the series). -/
def get_zeropadded_gap_idxs (H : List (Option ℚ)) : List Bool :=
  let p := zpFinish H.length (zpLoop H)
  markRanges H.length (p.1.zip p.2)

/-- Modelled from the spec: the looser trailing-zero classification that
`swe_delta_snow` requests with `get_zeropadded_gap_idxs(Hobs,
require_leading_zero=False)` when `ignore_trailingzero_gaps` is set.  The
two-parameter variant of `get_zeropadded_gap_idxs` is not present under
`src/` (the function there takes only `Hobs`; only its callers in
`main.py` and its tests refer to the second parameter), so this
definition follows the spec's words: a maximal run of missing values is
eligible exactly when the value immediately after the run is zero or the
run reaches the end of the series, with no constraint on the value before
the run.  `firstPresent` returns the first non-missing value of a list
(`none` when there is none), so for a missing value at index `i` the
value immediately after its run is `firstPresent` of the suffix after
`i`. -/
def firstPresent : List (Option ℚ) → Option ℚ
  | [] => none
  | none :: rest => firstPresent rest
  | some v :: _ => some v

/-- Modelled from the spec (see `firstPresent`): the trailing-zero gap
mask — position `i` is marked exactly when `Hobs[i]` is missing and the
first present value after it is zero or absent. -/
def get_trailingzero_gap_idxs (H : List (Option ℚ)) : List Bool :=
  (List.range H.length).map (fun i =>
    hget H i = none ∧
      (firstPresent (H.drop (i + 1)) = none ∨ firstPresent (H.drop (i + 1)) = some 0))

/-! ## Gap Classifier, short interpolable gaps (`utils.get_small_gap_idxs`) -/

/-- The access `Hobs[i-1]` as performed (unguarded) by the run-end test of
`get_small_gap_idxs`: at `i = 0` Python evaluates `Hobs[-1]`, the last
element. -/
def pygetPrev (H : List (Option ℚ)) (i : ℕ) : Option ℚ :=
  if i = 0 then hget H (H.length - 1) else hget H (i - 1)

/-- Loop state of `get_small_gap_idxs`. -/
structure SgState where
  startIdxs : List ℕ
  stopIdxs : List ℕ
  gapl : ℕ
  activeGap : Bool
  validGap : Bool
  start : ℕ
deriving Repr

/-- One iteration of the loop of `get_small_gap_idxs` at index `i`, in the
source's statement order: bump the active-gap length counter, invalidate
an over-long gap, open a new gap when the data falls into NaN after a
present value, and on the first present value after NaN close the gap —
recording it when it is still valid and
`continuous_timedeltas(dates[start-1:i+1])` reports regular spacing.  The
regularity test only runs with `valid_gap` set, which forces the slice to
span at least three timestamps, so its boolean component `continuousB` is
total there (the `resolution` unbound-local failure of
`continuous_timedeltas` needs one timestamp or fewer). -/
def sgStepA (st : SgState) : SgState :=
  if st.activeGap then { st with gapl := st.gapl + 1 } else st

/-- Second statement: an over-long gap is invalidated. -/
def sgStepB (maxGap : ℕ) (st : SgState) : SgState :=
  if maxGap < st.gapl then { st with validGap := false } else st

/-- Third statement: a gap opens where the data falls into NaN after a
present value. -/
def sgStepC (H : List (Option ℚ)) (i : ℕ) (st : SgState) : SgState :=
  if 0 < i ∧ ¬ (hget H (i - 1) = none) ∧ hget H i = none then
    { st with start := i, validGap := true, activeGap := true } else st

/-- Fourth statement: at the first present value after NaN, record the
gap when still valid and when the surrounding timestamps are regular,
then reset the gap-tracking state. -/
def sgStepD (H : List (Option ℚ)) (dates : List ℤ) (i : ℕ) (st : SgState) : SgState :=
  if pygetPrev H i = none ∧ ¬ (hget H i = none) then
    { (if st.validGap = true ∧
          continuousB (pyslice dates (st.start - 1) (i + 1)) = true then
        { st with startIdxs := st.startIdxs ++ [st.start],
                  stopIdxs := st.stopIdxs ++ [i] }
      else st) with
      gapl := 0, activeGap := false, validGap := false }
  else st

def sgStep (H : List (Option ℚ)) (dates : List ℤ) (maxGap : ℕ)
    (st : SgState) (i : ℕ) : SgState :=
  sgStepD H dates i (sgStepC H i (sgStepB maxGap (sgStepA st)))

/-- The state after the whole loop of `get_small_gap_idxs` (initially
`gapl = 0`, both flags `False`, `start = len(Hobs)`, empty index
lists). -/
def sgLoop (H : List (Option ℚ)) (dates : List ℤ) (maxGap : ℕ) : SgState :=
  (List.range H.length).foldl (sgStep H dates maxGap) ⟨[], [], 0, false, false, H.length⟩

/-- Shallow embedding of `utils.get_small_gap_idxs`: the boolean mask of
interior NaN runs of length at most `max_gap_length` whose surrounding
timestamps (one sample before the run through one sample after) are
evenly spaced. -/
def get_small_gap_idxs (H : List (Option ℚ)) (dates : List ℤ) (maxGap : ℕ) : List Bool :=
  let st := sgLoop H dates maxGap
  markRanges H.length (st.startIdxs.zip st.stopIdxs)

/-! ## Gap Resolver (`utils.fill_small_gaps` and the `np.where` steps of
`main.swe_delta_snow`) -/

/-- `np.where(mask, 0., Hobs)`: the gap-resolution overwrite of
`swe_delta_snow` — masked positions become zero depth for computation
purposes. -/
def zeroResolve (mask : List Bool) (H : List (Option ℚ)) : List (Option ℚ) :=
  List.zipWith (fun m v => if m then some 0 else v) mask H

/-- Shallow embedding of `utils.fill_small_gaps`, parametrised by the
external interpolation capability `interp` standing for
`pd.Series(Hobs).interpolate(method)`: positions selected by
`get_small_gap_idxs` take the interpolated value, all others keep their
original value (`np.where(valid_gap_mask, interpolated, Hobs)`). -/
def fill_small_gaps (interp : List (Option ℚ) → List (Option ℚ))
    (H : List (Option ℚ)) (dates : List ℤ) (maxGap : ℕ) : List (Option ℚ) :=
  let valid := get_small_gap_idxs H dates maxGap
  (List.range H.length).map (fun i =>
    if valid.getD i false then (interp H).getD i none else hget H i)

/-! ## Orchestrator (`main.swe_delta_snow`) -/

/-- The ingress data of `swe_delta_snow`: a pd.DataFrame (a set of named
columns, of which `date` and `hs` matter), a pd.Series (whose index may
or may not be a pd.DatetimeIndex), or any other object. -/
inductive PdsData where
  | frame (columns : List String) (dateCol : List ℤ) (hsCol : List (Option ℚ))
  | series (hasDatetimeIndex : Bool) (index : List ℤ) (values : List (Option ℚ))
  | other
deriving Repr

/-- `UNIT_FACTOR`: the length-unit conversion table of `main.py`. -/
def UNIT_FACTOR (u : String) : Option ℚ :=
  if u = "mm" then some (1 / 1000)
  else if u = "cm" then some (1 / 100)
  else if u = "m" then some 1 else none

/-- The type/shape validation of `swe_delta_snow`: not a DataFrame and not
a Series is a `ValueError`; a Series without a DatetimeIndex is a
`ValueError`, otherwise the Series is converted to a `date`/`hs` frame;
a frame lacking a `date` or `hs` column is a `ValueError`.  Returns the
(unsorted) date and hs columns. -/
def normalizeData : PdsData → Except PdsErr (List ℤ × List (Option ℚ))
  | .frame cols dates hs =>
      if "date" ∈ cols ∧ "hs" ∈ cols then .ok (dates, hs) else .error .valueColumns
  | .series dt idx vals => if dt then .ok (idx, vals) else .error .valueSeriesIndex
  | .other => .error .valueDataType

/-- `data.sort_values(by='date')`, modelled as a (stable) insertion sort
of the (date, hs) rows by date. -/
def sortByDate (dates : List ℤ) (hs : List (Option ℚ)) : List (ℤ × Option ℚ) :=
  (dates.zip hs).insertionSort (fun a b => a.1 ≤ b.1)

/-- The input-preparation prefix of `swe_delta_snow`: the two unit
`assert`s (in source order, `AssertionError` on failure), the type/column
validation, the sort by date, and the scaling of the hs column by the
input-unit factor (`data['hs'].mul(UNIT_FACTOR[hs_input_unit])`;
`NaN * factor` stays NaN).  Returns the output-unit factor together with
the sorted timestamps and the scaled depth series. -/
def prepared (data : PdsData) (hs_input_unit swe_output_unit : String) :
    Except PdsErr (ℚ × List ℤ × List (Option ℚ)) := do
  let fin ← match UNIT_FACTOR hs_input_unit with
    | some f => pure f
    | none => .error .assertHsUnit
  let fout ← match UNIT_FACTOR swe_output_unit with
    | some f => pure f
    | none => .error .assertSweUnit
  let (dates0, hs0) ← normalizeData data
  let sorted := sortByDate dates0 hs0
  pure (fout, sorted.map Prod.fst, sorted.map (fun p => p.2.map (fun q => q * fin)))

/-- The gap-resolution block of `swe_delta_snow`: when a zero-padded gap
mode is on, compute the gap mask (the trailing-zero variant when
`ignore_trailingzero_gaps`, the strict variant otherwise) and overwrite
masked positions with zero; then, when the series still contains NaNs and
`interpolate_small_gaps` is on, fill small gaps by interpolation.
Returns the mask (kept for the final re-masking; `none` when no
zero-padded gap mode is on) and the resolved series.  `interpStage` is
the interpolation step (`if np.any(np.isnan(Hobs)) and
interpolate_small_gaps`), `gapResolved` the whole block. -/
def interpStage (interp : List (Option ℚ) → List (Option ℚ))
    (interpolate_small_gaps : Bool) (max_gap_length : ℕ) (dates : List ℤ)
    (H : List (Option ℚ)) : List (Option ℚ) :=
  if H.any (fun v => v = none) && interpolate_small_gaps then
    fill_small_gaps interp H dates max_gap_length
  else H

def gapResolved (interp : List (Option ℚ) → List (Option ℚ))
    (ignore_zeropadded_gaps ignore_trailingzero_gaps interpolate_small_gaps : Bool)
    (max_gap_length : ℕ) (dates : List ℤ) (H : List (Option ℚ)) :
    Option (List Bool) × List (Option ℚ) :=
  let p : Option (List Bool) × List (Option ℚ) :=
    if ignore_zeropadded_gaps || ignore_trailingzero_gaps then
      let m := if ignore_trailingzero_gaps then get_trailingzero_gap_idxs H
               else get_zeropadded_gap_idxs H
      (some m, zeroResolve m H)
    else (none, H)
  (p.1, interpStage interp interpolate_small_gaps max_gap_length dates p.2)

/-- The NaN validation of `swe_delta_snow` (its `elif` chain consults
`ignore_zeropadded_gaps` and `interpolate_small_gaps` only; note the
chain has no branch for remaining NaNs with `interpolate_small_gaps` on
but `ignore_zeropadded_gaps` off — those fall through to the positivity
check). -/
def nanCheck (ignore_zeropadded_gaps interpolate_small_gaps : Bool)
    (H : List (Option ℚ)) : Except PdsErr Unit :=
  let has_nans := H.any (fun v => v = none)
  if has_nans ∧ ¬ ignore_zeropadded_gaps ∧ ¬ interpolate_small_gaps then
    .error .valueNanStrict
  else if has_nans ∧ ignore_zeropadded_gaps ∧ ¬ interpolate_small_gaps then
    .error .valueNanZeropadded
  else if has_nans ∧ ignore_zeropadded_gaps ∧ interpolate_small_gaps then
    .error .valueNanInterp
  else .ok ()

/-- `if not np.all(Hobs >= 0)`: fails when any value is negative or NaN
(IEEE: `NaN >= 0` is false). -/
def nonnegCheck (H : List (Option ℚ)) : Except PdsErr Unit :=
  if ¬ (H.all fun v => match v with | some q => decide (0 ≤ q) | none => false) then
    .error .valueNegative
  else .ok ()

/-- `if not np.all(np.isreal(Hobs))`: `np.isreal` is true of every float
(including NaN), so on a float array this check never fails. -/
def numericCheck (H : List (Option ℚ)) : Except PdsErr Unit :=
  if ¬ (H.all fun _ => true) then .error .valueNumeric else .ok ()

/-- `if Hobs[0] != 0`: the initial-condition check.  On an empty series
the access `Hobs[0]` itself is out of bounds (`IndexError`). -/
def firstCheck (H : List (Option ℚ)) : Except PdsErr Unit :=
  match H with
  | [] => .error .indexError
  | v :: _ => if ¬ (v = some 0) then .error .valueInitialCond else .ok ()

/-- The date-continuity validation of `swe_delta_snow`: whole-series
regularity first; on failure, per-chunk regularity; on failure of that, a
`ValueError`.  Returns the sniffed resolution in hours. -/
def continuityCheck (dates : List ℤ) (start_idxs stop_idxs : List ℕ) :
    Except PdsErr ℚ := do
  let (continuous, resolution) ← continuous_timedeltas dates
  if continuous then pure resolution
  else do
    let (c2, r2) ← continuous_timedeltas_in_nonzero_chunks dates start_idxs stop_idxs
    if c2 then pure r2 else .error .valueIrregular

/-- `swe_out[start:stop] = engine(Hobs[start:stop], ..., resolution)`: one
chunk-sized slice assignment into the preallocated output. -/
def writeChunk (out : List ℚ) (s t : ℕ) (vals : List ℚ) : List ℚ :=
  (List.range out.length).map (fun i =>
    if s ≤ i ∧ i < t then vals.getD (i - s) 0 else out.getD i 0)

/-- Shallow embedding of `main._deltasnow_on_nonzero_chunks`,
parametrised by the snowpack evolution engine
(`core.deltasnow_snowpack_evolution`, an external collaborator of the
preprocessing pipeline): the engine's output for each nonzero chunk is
written into the preallocated `swe_out` at that chunk's index range. -/
def deltasnow_on_nonzero_chunks (engine : List (Option ℚ) → ℚ → List ℚ)
    (H : List (Option ℚ)) (swe_out : List ℚ)
    (start_idxs stop_idxs : List ℕ) (resolution : ℚ) : List ℚ :=
  (start_idxs.zip stop_idxs).foldl
    (fun acc p => writeChunk acc p.1 p.2 (engine (pyslice H p.1 p.2) resolution)) swe_out

/-- `np.where(zeropadded_gap_idxs, np.nan, swe)` — restore NaNs at masked
positions — applied only when a zero-padded gap mode was on (`mask? =
some m`); otherwise the swe values pass through. -/
def remask (mask? : Option (List Bool)) (swe : List ℚ) : List (Option ℚ) :=
  match mask? with
  | some m => (List.range swe.length).map (fun i =>
      if m.getD i false then none else some (swe.getD i 0))
  | none => swe.map some

/-- Shallow embedding of `main.swe_delta_snow`, parametrised by the
snowpack evolution engine and the external interpolation capability.  The
result is the SWE series (one `Option ℚ` per sorted input row, `none` for
a restored NaN), scaled by `0.001 / UNIT_FACTOR[swe_output_unit]` as in
the source. -/
def swe_delta_snow (engine : List (Option ℚ) → ℚ → List ℚ)
    (interp : List (Option ℚ) → List (Option ℚ)) (data : PdsData)
    (hs_input_unit swe_output_unit : String)
    (ignore_zeropadded_gaps ignore_trailingzero_gaps interpolate_small_gaps : Bool)
    (max_gap_length : ℕ) : Except PdsErr (List (Option ℚ)) := do
  let (fout, dates, Hraw) ← prepared data hs_input_unit swe_output_unit
  let mh := gapResolved interp ignore_zeropadded_gaps ignore_trailingzero_gaps
    interpolate_small_gaps max_gap_length dates Hraw
  let H := mh.2
  nanCheck ignore_zeropadded_gaps interpolate_small_gaps H
  nonnegCheck H
  numericCheck H
  firstCheck H
  let chunks := get_nonzero_chunk_idxs H
  let resolution ← continuityCheck dates chunks.1 chunks.2
  let swe := deltasnow_on_nonzero_chunks engine H (List.replicate H.length 0)
    chunks.1 chunks.2 resolution
  pure ((remask mh.1 swe).map (Option.map (fun v => v * (1 / 1000) / fout)))

/-! ## Lemmas about indexing -/

lemma hget_nil (i : ℕ) : hget [] i = none := by
  simp [hget]

lemma hget_append_left {H : List (Option ℚ)} {v : Option ℚ} {i : ℕ}
    (h : i < H.length) : hget (H ++ [v]) i = hget H i := by
  simp [hget, List.getElem?_append_left h]

lemma hget_append_self (H : List (Option ℚ)) (v : Option ℚ) :
    hget (H ++ [v]) H.length = v := by
  simp [hget, List.getElem?_append_right (le_refl H.length)]

lemma hget_eq_getElem {H : List (Option ℚ)} {i : ℕ} (h : i < H.length) :
    hget H i = H[i] := by
  simp [hget, List.getElem?_eq_getElem h]

/-! ## Characterization of the Chunk Segmenter's index lists -/

/-- Membership in the `start_idxs` list of `get_nonzero_chunk_idxs`:
exactly index `0` when the first value is nonzero, and every index whose
value is zero with a nonzero successor (the loop only looks at
`i < len(Hobs)-1`). -/
lemma mem_startIdxsOf (H : List (Option ℚ)) (i : ℕ) :
    i ∈ startIdxsOf H ↔
      ((i = 0 ∧ ¬ (hget H 0 = some 0)) ∨
        (i + 1 < H.length ∧ hget H i = some 0 ∧ ¬ (hget H (i + 1) = some 0))) := by
  unfold startIdxsOf startPred
  constructor
  · intro h
    rcases List.mem_append.mp h with h | h
    · by_cases h0 : hget H 0 = some 0 <;> simp [h0] at h
      exact Or.inl ⟨h, h0⟩
    · rcases List.mem_filter.mp h with ⟨hr, hp⟩
      have hi : i < H.length - 1 := List.mem_range.mp hr
      simp only [decide_eq_true_eq] at hp
      exact Or.inr ⟨by omega, hp.1, hp.2⟩
  · rintro (⟨h0, hz⟩ | ⟨hi, hz, hnz⟩)
    · subst h0
      exact List.mem_append.mpr (Or.inl (by simp [hz]))
    · refine List.mem_append.mpr (Or.inr (List.mem_filter.mpr ⟨List.mem_range.mpr ?_, ?_⟩))
      · omega
      · simp only [decide_eq_true_eq]
        exact ⟨hz, hnz⟩

/-- Membership in the loop-produced `stop_idxs` list of
`get_nonzero_chunk_idxs`: every positive index whose value is zero with a
nonzero predecessor. -/
lemma mem_stopIdxs0 (H : List (Option ℚ)) (j : ℕ) :
    j ∈ stopIdxs0 H ↔
      (0 < j ∧ j < H.length ∧ hget H j = some 0 ∧ ¬ (hget H (j - 1) = some 0)) := by
  unfold stopIdxs0 stopPred
  constructor
  · intro h
    rcases List.mem_filter.mp h with ⟨hr, hp⟩
    simp only [decide_eq_true_eq] at hp
    exact ⟨hp.1, List.mem_range.mp hr, by simpa using hp.2⟩
  · rintro ⟨h0, hj, hz, hnz⟩
    refine List.mem_filter.mpr ⟨List.mem_range.mpr hj, ?_⟩
    simp only [decide_eq_true_eq]
    exact ⟨h0, by simpa using ⟨hz, hnz⟩⟩

/-- Appending one value to the series appends at most one new chunk-start
index (the penultimate position, when the old last value is zero and the
new one nonzero). -/
lemma startIdxsOf_append (H : List (Option ℚ)) (v : Option ℚ) (hH : H ≠ []) :
    startIdxsOf (H ++ [v]) =
      startIdxsOf H ++
        (if hget H (H.length - 1) = some 0 ∧ ¬ (v = some 0) then [H.length - 1] else []) := by
  have hn : 1 ≤ H.length := List.length_pos.mpr hH
  unfold startIdxsOf
  have h0 : hget (H ++ [v]) 0 = hget H 0 := hget_append_left (by omega)
  have hlen : (H ++ [v]).length = H.length + 1 := by simp
  have hr : List.range ((H ++ [v]).length - 1) =
      List.range (H.length - 1) ++ [H.length - 1] := by
    rw [hlen]
    have : H.length + 1 - 1 = (H.length - 1) + 1 := by omega
    rw [this, List.range_succ]
  rw [hr, List.filter_append, h0]
  have hcongr : (List.range (H.length - 1)).filter (startPred (H ++ [v])) =
      (List.range (H.length - 1)).filter (startPred H) := by
    apply List.filter_congr
    intro i hi
    have hi' : i < H.length - 1 := List.mem_range.mp hi
    unfold startPred
    rw [hget_append_left (by omega), hget_append_left (by omega)]
  rw [hcongr]
  have hpred : startPred (H ++ [v]) (H.length - 1) =
      decide (hget H (H.length - 1) = some 0 ∧ ¬ (v = some 0)) := by
    unfold startPred
    rw [hget_append_left (by omega)]
    have : H.length - 1 + 1 = H.length := by omega
    rw [this, hget_append_self]
  by_cases hc : hget H (H.length - 1) = some 0 ∧ ¬ (v = some 0)
  · simp [List.filter, hpred, hc, List.append_assoc]
  · simp [List.filter, hpred, hc, List.append_assoc]

/-- Appending one value to the series appends at most one new chunk-stop
index (the old length, when the new value is zero and the old last value
nonzero). -/
lemma stopIdxs0_append (H : List (Option ℚ)) (v : Option ℚ) (hH : H ≠ []) :
    stopIdxs0 (H ++ [v]) =
      stopIdxs0 H ++
        (if v = some 0 ∧ ¬ (hget H (H.length - 1) = some 0) then [H.length] else []) := by
  have hn : 1 ≤ H.length := List.length_pos.mpr hH
  unfold stopIdxs0
  have hlen : (H ++ [v]).length = H.length + 1 := by simp
  rw [hlen, List.range_succ, List.filter_append]
  have hcongr : ∀ p q : ℕ → Bool, (∀ i ∈ List.range H.length, p i = q i) →
      (List.range H.length).filter p = (List.range H.length).filter q :=
    fun p q h => List.filter_congr h
  rw [hcongr _ (fun i => decide (0 < i ∧ stopPred H i = true)) ?_]
  · have hpred : (decide (0 < H.length ∧ stopPred (H ++ [v]) H.length = true)) =
        decide (v = some 0 ∧ ¬ (hget H (H.length - 1) = some 0)) := by
      unfold stopPred
      rw [hget_append_self, hget_append_left (by omega)]
      simp only [decide_eq_decide]
      constructor
      · rintro ⟨-, h⟩
        simpa using h
      · intro h
        exact ⟨by omega, by simpa using h⟩
    by_cases hc : v = some 0 ∧ ¬ (hget H (H.length - 1) = some 0)
    · simp only [List.filter, hpred]
      simp [hc]
    · simp only [List.filter, hpred]
      simp [hc]
  · intro i hi
    have hi' : i < H.length := List.mem_range.mp hi
    unfold stopPred
    by_cases h0 : 0 < i
    · rw [hget_append_left (by omega), hget_append_left (by omega)]
    · simp [show i = 0 by omega]

/-- Alternation counting: each series has exactly one more recorded chunk
start than loop-recorded chunk stops when it ends inside a nonzero run,
and equally many otherwise. -/
lemma startIdxs_length_eq (H : List (Option ℚ)) (hH : H ≠ []) :
    (startIdxsOf H).length =
      (stopIdxs0 H).length + (if hget H (H.length - 1) = some 0 then 0 else 1) := by
  induction H using List.reverseRecOn with
  | nil => exact absurd rfl hH
  | append_singleton H' v ih =>
    by_cases h' : H' = []
    · subst h'
      by_cases hv : v = some 0 <;>
        simp [startIdxsOf, stopIdxs0, startPred, stopPred, hget, hv,
          List.range_succ, List.filter]
    · have hn : 1 ≤ H'.length := List.length_pos.mpr h'
      rw [startIdxsOf_append H' v h', stopIdxs0_append H' v h']
      have hlast : hget (H' ++ [v]) ((H' ++ [v]).length - 1) = v := by
        have : (H' ++ [v]).length - 1 = H'.length := by simp
        rw [this, hget_append_self]
      rw [hlast]
      have := ih h'
      by_cases hA : hget H' (H'.length - 1) = some 0 <;>
        by_cases hB : v = some 0 <;> simp_all

/-- The final `stop_idxs` of `get_nonzero_chunk_idxs`: the loop's stops,
with `len(Hobs)` appended exactly when the series ends inside a nonzero
run. -/
lemma stops_eq (H : List (Option ℚ)) (hH : H ≠ []) :
    (get_nonzero_chunk_idxs H).2 =
      if hget H (H.length - 1) = some 0 then stopIdxs0 H
      else stopIdxs0 H ++ [H.length] := by
  have hc := startIdxs_length_eq H hH
  unfold get_nonzero_chunk_idxs
  by_cases hA : hget H (H.length - 1) = some 0 <;> simp_all

/-- The shape of one chunk `(start, stop)` produced by
`get_nonzero_chunk_idxs`: `start < stop ≤ len`, the interior
`(start, stop)` holds no zero value, the stop is a zero value (or the
series length, in which case the last value is nonzero), and the start is
either index 0 with a nonzero value or a zero value followed by a nonzero
value. -/
def chunkP (H : List (Option ℚ)) (p : ℕ × ℕ) : Prop :=
  p.1 < p.2 ∧ p.2 ≤ H.length ∧
  (∀ j, p.1 < j → j < p.2 → ¬ (hget H j = some 0)) ∧
  (p.2 < H.length → hget H p.2 = some 0) ∧
  (p.2 = H.length → ¬ (hget H (H.length - 1) = some 0)) ∧
  ((p.1 = 0 ∧ ¬ (hget H 0 = some 0)) ∨
    (hget H p.1 = some 0 ∧ ¬ (hget H (p.1 + 1) = some 0)))

/-- Transfer of a chunk's shape across an appended value, when the chunk
stops strictly before the old end. -/
lemma chunkP_append_of_lt {H : List (Option ℚ)} {v : Option ℚ} {p : ℕ × ℕ}
    (hp : chunkP H p) (hlt : p.2 < H.length) : chunkP (H ++ [v]) p := by
  obtain ⟨h1, h2, h3, h4, h5, h6⟩ := hp
  refine ⟨h1, by simp; omega, ?_, ?_, ?_, ?_⟩
  · intro j hj1 hj2
    rw [hget_append_left (by omega)]
    exact h3 j hj1 hj2
  · intro _
    rw [hget_append_left (by omega)]
    exact h4 hlt
  · intro h
    simp at h
    omega
  · rcases h6 with ⟨h0, hz⟩ | ⟨hz, hnz⟩
    · exact Or.inl ⟨h0, by rw [hget_append_left (by omega)]; exact hz⟩
    · exact Or.inr ⟨by rw [hget_append_left (by omega)]; exact hz,
        by rw [hget_append_left (by omega)]; exact hnz⟩

/-- Transfer of a chunk's shape across an appended zero value, when the
chunk stops exactly at the old end. -/
lemma chunkP_append_stop_end {H : List (Option ℚ)} {v : Option ℚ} {p : ℕ × ℕ}
    (hp : chunkP H p) (h2 : p.2 = H.length) (hv : v = some 0) :
    chunkP (H ++ [v]) p := by
  obtain ⟨h1, _, h3, _, h5, h6⟩ := hp
  have hn : 1 ≤ H.length := by omega
  have hlastnz := h5 h2
  refine ⟨h1, by simp; omega, ?_, ?_, ?_, ?_⟩
  · intro j hj1 hj2
    rw [hget_append_left (by omega)]
    exact h3 j hj1 hj2
  · intro _
    rw [h2, hget_append_self]
    exact hv
  · intro h
    simp at h
    omega
  · rcases h6 with ⟨h0, hz⟩ | ⟨hz, hnz⟩
    · exact Or.inl ⟨h0, by rw [hget_append_left (by omega)]; exact hz⟩
    · have hp1 : p.1 + 1 < H.length := by
        rcases Nat.lt_or_ge (p.1 + 1) H.length with h | h
        · exact h
        · exfalso
          have : p.1 + 1 = H.length := by omega
          have : p.1 = H.length - 1 := by omega
          rw [this] at hz
          exact hlastnz hz
      exact Or.inr ⟨by rw [hget_append_left (by omega)]; exact hz,
        by rw [hget_append_left hp1]; exact hnz⟩

/-- Transfer of a chunk's shape across an appended nonzero value, when the
chunk stops exactly at the old end: the chunk extends by one position. -/
lemma chunkP_append_extend {H : List (Option ℚ)} {v : Option ℚ} {p : ℕ × ℕ}
    (hp : chunkP H (p.1, H.length)) (h2 : p.2 = H.length + 1)
    (hv : ¬ (v = some 0)) : chunkP (H ++ [v]) p := by
  obtain ⟨h1, -, h3, -, h5, h6⟩ := hp
  simp only at h1 h3 h5 h6
  have hn : 1 ≤ H.length := by omega
  refine ⟨by omega, by simp; omega, ?_, ?_, ?_, ?_⟩
  · intro j hj1 hj2
    rcases Nat.lt_or_ge j H.length with hj | hj
    · rw [hget_append_left hj]
      exact h3 j hj1 hj
    · have : j = H.length := by omega
      rw [this, hget_append_self]
      exact hv
  · intro h
    simp at h
    omega
  · intro _
    have : (H ++ [v]).length - 1 = H.length := by simp
    rw [this, hget_append_self]
    exact hv
  · rcases h6 with ⟨h0, hz⟩ | ⟨hz, hnz⟩
    · exact Or.inl ⟨h0, by rw [hget_append_left (by omega)]; exact hz⟩
    · have hz1 : p.1 < H.length := by omega
      refine Or.inr ⟨by rw [hget_append_left hz1]; exact hz, ?_⟩
      rcases Nat.lt_or_ge (p.1 + 1) H.length with h | h
      · rw [hget_append_left h]
        exact hnz
      · have : p.1 + 1 = H.length := by omega
        rw [this, hget_append_self]
        exact hv

/-- The brand-new chunk created when a nonzero value is appended to a
series ending in zero. -/
lemma chunkP_new {H : List (Option ℚ)} {v : Option ℚ}
    (hH : H ≠ []) (hA : hget H (H.length - 1) = some 0) (hv : ¬ (v = some 0)) :
    chunkP (H ++ [v]) (H.length - 1, H.length + 1) := by
  have hn : 1 ≤ H.length := List.length_pos.mpr hH
  refine ⟨by omega, by simp, ?_, ?_, ?_, ?_⟩
  · intro j hj1 hj2
    have : j = H.length := by omega
    rw [this, hget_append_self]
    exact hv
  · intro h
    simp at h
  · intro _
    have : (H ++ [v]).length - 1 = H.length := by simp
    rw [this, hget_append_self]
    exact hv
  · refine Or.inr ⟨by rw [hget_append_left (by omega)]; exact hA, ?_⟩
    have : H.length - 1 + 1 = H.length := by omega
    rw [this, hget_append_self]
    exact hv

/-- Master structural lemma for the Chunk Segmenter: every `(start, stop)`
pair obtained by zipping the two returned index lists (as the orchestrator
does) has the chunk shape `chunkP`. -/
lemma chunkP_of_mem_zip (H : List (Option ℚ)) (hH : H ≠ []) :
    ∀ p ∈ (get_nonzero_chunk_idxs H).1.zip (get_nonzero_chunk_idxs H).2,
      chunkP H p := by
  induction H using List.reverseRecOn with
  | nil => exact absurd rfl hH
  | append_singleton H' v ih =>
    by_cases h' : H' = []
    · subst h'
      intro p hp
      by_cases hv : v = some 0
      · simp [get_nonzero_chunk_idxs, startIdxsOf, stopIdxs0, startPred, stopPred,
          hget, hv, List.range_succ, List.filter] at hp
      · simp [get_nonzero_chunk_idxs, startIdxsOf, stopIdxs0, startPred, stopPred,
          hget, hv, List.range_succ, List.filter] at hp
        subst hp
        refine ⟨by omega, by simp, by omega, by simp, ?_, ?_⟩
        · intro _
          simpa [hget] using hv
        · exact Or.inl ⟨rfl, by simpa [hget] using hv⟩
    · have hn : 1 ≤ H'.length := List.length_pos.mpr h'
      have hne : H' ++ [v] ≠ [] := by simp
      have hcount := startIdxs_length_eq H' h'
      have hstopsOld := stops_eq H' h'
      have hstopsNew := stops_eq (H' ++ [v]) hne
      have hlastNew : hget (H' ++ [v]) ((H' ++ [v]).length - 1) = v := by
        have : (H' ++ [v]).length - 1 = H'.length := by simp
        rw [this, hget_append_self]
      have hstarts := startIdxsOf_append H' v h'
      have hstops0 := stopIdxs0_append H' v h'
      have ihp := ih h'
      have hfst : ∀ X : List (Option ℚ), (get_nonzero_chunk_idxs X).1 = startIdxsOf X :=
        fun _ => rfl
      rw [hfst, hstopsNew, hlastNew, hstarts, hstops0]
      rw [hfst, hstopsOld] at ihp
      have hmemT0 : ∀ t ∈ stopIdxs0 H', t < H'.length := by
        intro t ht
        exact ((mem_stopIdxs0 H' t).mp ht).2.1
      by_cases hA : hget H' (H'.length - 1) = some 0 <;>
        by_cases hB : v = some 0
      -- case A ∧ B: no new start, no new loop stop, no trailing stop
      · have e1 : (if hget H' (H'.length - 1) = some 0 ∧ ¬ v = some 0
            then [H'.length - 1] else []) = [] := by simp [hB]
        have e2 : (if v = some 0 ∧ ¬ hget H' (H'.length - 1) = some 0
            then [H'.length] else []) = [] := by simp [hA]
        rw [e1, e2, List.append_nil, List.append_nil, if_pos hB]
        rw [if_pos hA] at ihp
        intro p hp
        have hpold := ihp p hp
        have hlt : p.2 < H'.length := by
          rcases Nat.lt_or_ge p.2 H'.length with h | h
          · exact h
          · exfalso
            have h2 : p.2 ≤ H'.length := hpold.2.1
            have : p.2 = H'.length := by omega
            exact (hpold.2.2.2.2.1 this) hA
        exact chunkP_append_of_lt hpold hlt
      -- case A ∧ ¬B: new start at len-1, trailing stop at len+1
      · have e1 : (if hget H' (H'.length - 1) = some 0 ∧ ¬ v = some 0
            then [H'.length - 1] else []) = [H'.length - 1] := by simp [hA, hB]
        have e2 : (if v = some 0 ∧ ¬ hget H' (H'.length - 1) = some 0
            then [H'.length] else []) = [] := by simp [hB]
        have hlenEq : (startIdxsOf H').length = (stopIdxs0 H').length := by
          rw [hcount, if_pos hA]
          omega
        rw [e1, e2, List.append_nil, if_neg hB]
        rw [if_pos hA] at ihp
        intro p hp
        rw [List.zip_append hlenEq] at hp
        rcases List.mem_append.mp hp with hp | hp
        · have hpold := ihp p hp
          have hlt : p.2 < H'.length := by
            rcases Nat.lt_or_ge p.2 H'.length with h | h
            · exact h
            · exfalso
              have h2 : p.2 ≤ H'.length := hpold.2.1
              have : p.2 = H'.length := by omega
              exact (hpold.2.2.2.2.1 this) hA
          exact chunkP_append_of_lt hpold hlt
        · have hpeq : p = (H'.length - 1, (H' ++ [v]).length) := by simpa using hp
          subst hpeq
          have := chunkP_new h' hA hB
          simpa using this
      -- case ¬A ∧ B: new loop stop at len
      · have e1 : (if hget H' (H'.length - 1) = some 0 ∧ ¬ v = some 0
            then [H'.length - 1] else []) = [] := by simp [hA]
        have e2 : (if v = some 0 ∧ ¬ hget H' (H'.length - 1) = some 0
            then [H'.length] else []) = [H'.length] := by simp [hA, hB]
        rw [e1, e2, List.append_nil, if_pos hB]
        rw [if_neg hA] at ihp
        intro p hp
        have hpold := ihp p hp
        rcases Nat.lt_or_ge p.2 H'.length with hlt | hge
        · exact chunkP_append_of_lt hpold hlt
        · have h2 : p.2 = H'.length := by
            have := hpold.2.1
            omega
          exact chunkP_append_stop_end hpold h2 hB
      -- case ¬A ∧ ¬B: last chunk's trailing stop moves from len to len+1
      · have e1 : (if hget H' (H'.length - 1) = some 0 ∧ ¬ v = some 0
            then [H'.length - 1] else []) = [] := by simp [hA]
        have e2 : (if v = some 0 ∧ ¬ hget H' (H'.length - 1) = some 0
            then [H'.length] else []) = [] := by simp [hB]
        have hlenEq : (startIdxsOf H').length = (stopIdxs0 H').length + 1 := by
          rw [hcount, if_neg hA]
        rw [e1, e2, List.append_nil, List.append_nil, if_neg hB]
        rw [if_neg hA] at ihp
        obtain ⟨S0, sl, hS⟩ : ∃ S0 sl, startIdxsOf H' = S0 ++ [sl] := by
          rcases (startIdxsOf H').eq_nil_or_concat with h | ⟨L, b, h⟩
          · rw [h] at hlenEq
            simp at hlenEq
          · exact ⟨L, b, by simpa using h⟩
        have hS0len : S0.length = (stopIdxs0 H').length := by
          rw [hS] at hlenEq
          simp at hlenEq
          omega
        intro p hp
        rw [hS, List.zip_append hS0len] at hp
        rcases List.mem_append.mp hp with hp | hp
        · have hpold : chunkP H' p := by
            apply ihp
            rw [hS, List.zip_append hS0len]
            exact List.mem_append.mpr (Or.inl hp)
          have hlt : p.2 < H'.length :=
            hmemT0 p.2 (List.of_mem_zip hp).2
          exact chunkP_append_of_lt hpold hlt
        · have hpeq : p = (sl, (H' ++ [v]).length) := by simpa using hp
          have hpold : chunkP H' (sl, H'.length) := by
            apply ihp
            rw [hS, List.zip_append hS0len]
            simp
          subst hpeq
          have hext := chunkP_append_extend (p := (sl, H'.length + 1)) hpold rfl hB
          simpa using hext

/-- When the series starts with a zero, every chunk spans at least two
indices (its start is the zero before the rise, its stop at least one
past the following nonzero value). -/
lemma chunk_two_le (H : List (Option ℚ)) (hH : H ≠ []) (h0 : hget H 0 = some 0) :
    ∀ p ∈ (get_nonzero_chunk_idxs H).1.zip (get_nonzero_chunk_idxs H).2,
      p.1 + 2 ≤ p.2 ∧ p.2 ≤ H.length := by
  intro p hp
  obtain ⟨h1, h2, h3, h4, h5, h6⟩ := chunkP_of_mem_zip H hH p hp
  refine ⟨?_, h2⟩
  rcases h6 with ⟨-, hz⟩ | ⟨hz, hnz⟩
  · exact absurd h0 hz
  · rcases Nat.lt_or_ge (p.1 + 1) p.2 with h | h
    · omega
    · exfalso
      have he : p.2 = p.1 + 1 := by omega
      rcases Nat.lt_or_ge p.2 H.length with hlt | hge
      · exact hnz (he ▸ h4 hlt)
      · have hn : p.2 = H.length := by omega
        have : H.length - 1 = p.1 := by omega
        exact (h5 hn) (this ▸ hz)

/-- When the series starts with a zero, the chunk start list is empty
exactly when the series is identically zero. -/
lemma startIdxsOf_eq_nil_iff (H : List (Option ℚ)) (h0 : hget H 0 = some 0) :
    startIdxsOf H = [] ↔ ∀ i, i < H.length → hget H i = some 0 := by
  constructor
  · intro hnil
    intro i hi
    induction i using Nat.strong_induction_on with
    | _ i ihz =>
      by_contra hne
      have hipos : 0 < i := by
        rcases Nat.eq_zero_or_pos i with h | h
        · exact absurd (by rw [h]; exact h0) hne
        · exact h
      have hprev : hget H (i - 1) = some 0 := ihz (i - 1) (by omega) (by omega)
      have hmem : i - 1 ∈ startIdxsOf H := by
        rw [mem_startIdxsOf]
        refine Or.inr ⟨by omega, hprev, ?_⟩
        have : i - 1 + 1 = i := by omega
        rw [this]
        exact hne
      rw [hnil] at hmem
      exact absurd hmem (List.not_mem_nil _)
  · intro hall
    rw [List.eq_nil_iff_forall_not_mem]
    intro i hmem
    rcases (mem_startIdxsOf H i).mp hmem with ⟨h0', hz⟩ | ⟨hi, -, hnz⟩
    · exact hz (h0' ▸ h0)
    · exact hnz (hall (i + 1) hi)

/-- C1 helper: membership in the final stop list of
`get_nonzero_chunk_idxs`, including the implicit stop at the series
length. -/
lemma mem_stops_iff (H : List (Option ℚ)) (hH : H ≠ []) (j : ℕ) :
    j ∈ (get_nonzero_chunk_idxs H).2 ↔
      ((0 < j ∧ j < H.length ∧ hget H j = some 0 ∧ ¬ hget H (j - 1) = some 0) ∨
        (j = H.length ∧ ¬ hget H (H.length - 1) = some 0)) := by
  rw [stops_eq H hH]
  by_cases hA : hget H (H.length - 1) = some 0
  · rw [if_pos hA, mem_stopIdxs0]
    constructor
    · exact Or.inl
    · rintro (h | ⟨-, hz⟩)
      · exact h
      · exact absurd hA hz
  · rw [if_neg hA]
    constructor
    · intro h
      rcases List.mem_append.mp h with h | h
      · exact Or.inl ((mem_stopIdxs0 H j).mp h)
      · exact Or.inr ⟨by simpa using h, hA⟩
    · rintro (h | ⟨hj, -⟩)
      · exact List.mem_append.mpr (Or.inl ((mem_stopIdxs0 H j).mpr h))
      · exact List.mem_append.mpr (Or.inr (by simp [hj]))

/-- C1: `get_nonzero_chunk_idxs` segments a gap-free depth vector exactly
as specified: a chunk starts at index 0 if the first value is nonzero,
otherwise at each index `i` where `value[i]` is zero and `value[i+1]` is
nonzero; a chunk stops at the first index `j` after a start where
`value[j]` is zero and `value[j-1]` was nonzero (this is the stop paired
with the start: it satisfies the stop condition when below the length,
and no index strictly between the start and it does), with the implicit
stop equal to the series length when the series ends inside a nonzero
run; and the three examples of the specification hold. -/
theorem C1_chunk_segmentation :
    (∀ H : List (Option ℚ), H ≠ [] →
      (∀ i, i ∈ (get_nonzero_chunk_idxs H).1 ↔
        ((i = 0 ∧ ¬ hget H 0 = some 0) ∨
          (i + 1 < H.length ∧ hget H i = some 0 ∧ ¬ hget H (i + 1) = some 0))) ∧
      (∀ j, j ∈ (get_nonzero_chunk_idxs H).2 ↔
        ((0 < j ∧ j < H.length ∧ hget H j = some 0 ∧ ¬ hget H (j - 1) = some 0) ∨
          (j = H.length ∧ ¬ hget H (H.length - 1) = some 0))) ∧
      (∀ p ∈ (get_nonzero_chunk_idxs H).1.zip (get_nonzero_chunk_idxs H).2,
        p.1 < p.2 ∧ p.2 ≤ H.length ∧
        (p.2 < H.length → hget H p.2 = some 0 ∧ ¬ hget H (p.2 - 1) = some 0) ∧
        (∀ j, p.1 < j → j < p.2 →
          ¬ (hget H j = some 0 ∧ ¬ hget H (j - 1) = some 0)))) ∧
    get_nonzero_chunk_idxs (([0, 0, 1, 1, 1, 1, 0, 0] : List ℚ).map some) = ([1], [6]) ∧
    get_nonzero_chunk_idxs (([1, 1, 1, 0, 0] : List ℚ).map some) = ([0], [3]) ∧
    get_nonzero_chunk_idxs (([0, 0, 0, 0] : List ℚ).map some) = ([], []) := by
  refine ⟨?_, by decide, by decide, by decide⟩
  intro H hH
  refine ⟨fun i => mem_startIdxsOf H i, fun j => mem_stops_iff H hH j, ?_⟩
  intro p hp
  obtain ⟨h1, h2, h3, h4, h5, h6⟩ := chunkP_of_mem_zip H hH p hp
  refine ⟨h1, h2, ?_, ?_⟩
  · intro hlt
    refine ⟨h4 hlt, ?_⟩
    rcases Nat.lt_or_ge p.1 (p.2 - 1) with h | h
    · have := h3 (p.2 - 1) h (by omega)
      intro hz
      exact this hz
    · have he : p.2 - 1 = p.1 := by omega
      rw [he]
      rcases h6 with ⟨h0, hz⟩ | ⟨hz, hnz⟩
      · rw [h0]
        exact hz
      · exfalso
        have : p.2 = p.1 + 1 := by omega
        exact hnz (this ▸ h4 hlt)
  · intro j hj1 hj2
    rintro ⟨hz, -⟩
    exact h3 j hj1 hj2 hz

/-- Witness for C1 at a concrete input: the start-membership
characterization instantiated on the first example series. -/
theorem C1_chunk_segmentation_witness :
    1 ∈ (get_nonzero_chunk_idxs (([0, 0, 1, 1, 1, 1, 0, 0] : List ℚ).map some)).1 ↔
      ((1 = 0 ∧ ¬ hget (([0, 0, 1, 1, 1, 1, 0, 0] : List ℚ).map some) 0 = some 0) ∨
        (1 + 1 < (([0, 0, 1, 1, 1, 1, 0, 0] : List ℚ).map some).length ∧
          hget (([0, 0, 1, 1, 1, 1, 0, 0] : List ℚ).map some) 1 = some 0 ∧
          ¬ hget (([0, 0, 1, 1, 1, 1, 0, 0] : List ℚ).map some) (1 + 1) = some 0)) :=
  (C1_chunk_segmentation.1 (([0, 0, 1, 1, 1, 1, 0, 0] : List ℚ).map some)
    (by decide)).1 1

/-- C9 counterexample: the claim says the depth at the start index of
every returned chunk is nonzero, but for `[0,0,1,1,1,1,0,0]` the returned
start index is 1 and the depth there is zero (the segmenter records the
bounding zero before the rise, not the first nonzero sample). -/
theorem C9_counterexample :
    1 ∈ (get_nonzero_chunk_idxs (([0, 0, 1, 1, 1, 1, 0, 0] : List ℚ).map some)).1 ∧
      hget (([0, 0, 1, 1, 1, 1, 0, 0] : List ℚ).map some) 1 = some 0 := by
  decide

/-- C9 amended: the depth at a returned chunk start is the bounding zero
before the rise (followed by a nonzero value), except for a chunk
starting at index 0 of a series whose first value is nonzero. -/
theorem C9_amended_chunk_start (H : List (Option ℚ)) (_hH : H ≠ [])
    (s : ℕ) (hs : s ∈ (get_nonzero_chunk_idxs H).1) :
    (s = 0 ∧ ¬ hget H 0 = some 0) ∨
      (hget H s = some 0 ∧ ¬ hget H (s + 1) = some 0) := by
  rcases (mem_startIdxsOf H s).mp hs with ⟨h0, hz⟩ | ⟨-, hz, hnz⟩
  · exact Or.inl ⟨h0, hz⟩
  · exact Or.inr ⟨hz, hnz⟩

/-- Witness for the amended C9 at a concrete input. -/
theorem C9_amended_chunk_start_witness :
    (1 = 0 ∧ ¬ hget (([0, 0, 1, 1, 0] : List ℚ).map some) 0 = some 0) ∨
      (hget (([0, 0, 1, 1, 0] : List ℚ).map some) 1 = some 0 ∧
        ¬ hget (([0, 0, 1, 1, 0] : List ℚ).map some) (1 + 1) = some 0) :=
  C9_amended_chunk_start (([0, 0, 1, 1, 0] : List ℚ).map some) (by decide) 1 (by decide)

/-- C4: on a timestamp sequence of length zero or one,
`continuous_timedeltas` does not return successfully: the source assigns
`continuous = True` but never assigns `resolution` on that branch, so the
`return continuous, resolution` statement fails on the unassigned local
(the claim that the call succeeds, with regularity true and no resolution
value, is contradicted at both failing inputs). -/
theorem C4_short_series_fails :
    continuous_timedeltas ([] : List ℤ) = .error .unboundLocal ∧
      continuous_timedeltas [(0 : ℤ)] = .error .unboundLocal :=
  ⟨rfl, rfl⟩

/-- `continuous_timedeltas` on at least two timestamps: the regularity
boolean together with the first timedelta in hours. -/
lemma continuous_timedeltas_ok (l : List ℤ) (h : tdeltas l ≠ []) :
    continuous_timedeltas l =
      .ok (continuousB l, Rat.divInt ((tdeltas l).headD 0) ONE_HOUR) := by
  unfold continuous_timedeltas
  cases htd : tdeltas l with
  | nil => exact absurd htd h
  | cons d ds => simp [htd]

/-- The per-chunk resolution reported by the chunked regularity check:
the first timedelta of the chunk's timestamp slice, in hours. -/
def sliceRes (dr : List ℤ) (p : ℕ × ℕ) : ℚ :=
  Rat.divInt ((tdeltas (pyslice dr p.1 p.2)).headD 0) ONE_HOUR

lemma mapM_ctd_ok (dr : List ℤ) (pairs : List (ℕ × ℕ))
    (h : ∀ p ∈ pairs, tdeltas (pyslice dr p.1 p.2) ≠ []) :
    pairs.mapM (fun p => continuous_timedeltas (pyslice dr p.1 p.2)) =
      .ok (pairs.map (fun p => (continuousB (pyslice dr p.1 p.2), sliceRes dr p))) := by
  induction pairs with
  | nil => rfl
  | cons p rest ih =>
    rw [List.mapM_cons, continuous_timedeltas_ok _ (h p (List.mem_cons_self p rest)),
      ih (fun q hq => h q (List.mem_cons_of_mem p hq))]
    rfl

/-- C5 counterexample: with no chunks at all, every chunk (vacuously) is
individually regular with equal resolution, yet the function does not
report overall regularity true — it fails on the out-of-bounds `res[0]`
access. -/
theorem C5_counterexample :
    (∀ p ∈ ([] : List ℕ).zip ([] : List ℕ),
        continuousB (pyslice [(0 : ℤ)] p.1 p.2) = true) ∧
      ¬ ∃ r, continuous_timedeltas_in_nonzero_chunks [(0 : ℤ)] [] [] = .ok (true, r) := by
  refine ⟨by simp, ?_⟩
  rintro ⟨r, h⟩
  rw [show continuous_timedeltas_in_nonzero_chunks [(0 : ℤ)] [] [] =
    .error .indexError from rfl] at h
  cases h

lemma ctinc_eq (dr : List ℤ) (starts stops : List ℕ) (p0 : ℕ × ℕ) (ps : List (ℕ × ℕ))
    (hlen : starts.length = stops.length)
    (hzip : starts.zip stops = p0 :: ps)
    (hslices : ∀ p ∈ starts.zip stops, tdeltas (pyslice dr p.1 p.2) ≠ []) :
    continuous_timedeltas_in_nonzero_chunks dr starts stops =
      .ok ((((p0 :: ps).map (fun p => continuousB (pyslice dr p.1 p.2))).all (fun c => c) &&
        (((p0 :: ps).map (sliceRes dr)).all (fun r => r = sliceRes dr p0)), sliceRes dr p0)) := by
  have hplen : (starts.zip stops).length = starts.length := by
    rw [List.length_zip, hlen, Nat.min_self]
  have hmm := mapM_ctd_ok dr (starts.zip stops) hslices
  have hsub : starts.length - (p0 :: ps).length = 0 := by
    have h2 := hplen
    rw [hzip] at h2
    simp at h2 ⊢
    omega
  have hbind : ∀ {α β : Type} (x : α) (f : α → Except PdsErr β),
      (Except.ok x >>= f) = f x := fun _ _ => rfl
  unfold continuous_timedeltas_in_nonzero_chunks
  simp only [hmm, hbind]
  simp only [hzip, hsub, List.replicate_zero, List.append_nil, List.map_cons,
    List.map_map]
  simp only [Function.comp_def]

/-- Decidable equality for `Except` results, used to evaluate the model at
concrete inputs. -/
instance exceptDecEq {ε α : Type} [DecidableEq ε] [DecidableEq α] :
    DecidableEq (Except ε α) := fun x y =>
  match x, y with
  | .ok a, .ok b =>
      if h : a = b then .isTrue (by rw [h]) else .isFalse (fun hh => by cases hh; exact h rfl)
  | .error a, .error b =>
      if h : a = b then .isTrue (by rw [h]) else .isFalse (fun hh => by cases hh; exact h rfl)
  | .ok _, .error _ => .isFalse (fun hh => by cases hh)
  | .error _, .ok _ => .isFalse (fun hh => by cases hh)

/-- C5 amended: provided the start/stop lists pair up with at least one
chunk and every chunk slice spans at least two timestamps,
`continuous_timedeltas_in_nonzero_chunks` reports overall regularity true
exactly when every chunk's timestamp slice is evenly spaced and all
chunks report one common resolution; and on a concrete input whose two
chunks are individually regular with resolutions 24h·1 and 24h·2 it
reports false. -/
theorem C5_chunked_regularity :
    (∀ (dr : List ℤ) (starts stops : List ℕ),
      starts.length = stops.length → starts.zip stops ≠ [] →
      (∀ p ∈ starts.zip stops, tdeltas (pyslice dr p.1 p.2) ≠ []) →
      ((∃ r, continuous_timedeltas_in_nonzero_chunks dr starts stops = .ok (true, r)) ↔
        ((∀ p ∈ starts.zip stops, continuousB (pyslice dr p.1 p.2) = true) ∧
          ∀ p ∈ starts.zip stops,
            sliceRes dr p = sliceRes dr ((starts.zip stops).headD (0, 0))))) ∧
    continuous_timedeltas_in_nonzero_chunks
        [0, ONE_HOUR, 2 * ONE_HOUR, 4 * ONE_HOUR, 6 * ONE_HOUR] [0, 3] [3, 5] =
      .ok (false, 1) ∧
    continuousB (pyslice [0, ONE_HOUR, 2 * ONE_HOUR, 4 * ONE_HOUR, 6 * ONE_HOUR] 0 3) = true ∧
    continuousB (pyslice [0, ONE_HOUR, 2 * ONE_HOUR, 4 * ONE_HOUR, 6 * ONE_HOUR] 3 5) = true := by
  refine ⟨?_, by decide, by decide, by decide⟩
  intro dr starts stops hlen hne hslices
  obtain ⟨p0, ps, hzip⟩ := List.exists_cons_of_ne_nil hne
  rw [ctinc_eq dr starts stops p0 ps hlen hzip hslices, hzip]
  simp only [List.headD_cons]
  constructor
  · rintro ⟨r, hr⟩
    simp only [Except.ok.injEq, Prod.mk.injEq] at hr
    obtain ⟨hb, -⟩ := hr
    rw [Bool.and_eq_true] at hb
    obtain ⟨hc, hres⟩ := hb
    constructor
    · intro p hp
      have := List.all_eq_true.mp hc _ (List.mem_map_of_mem _ hp)
      simpa using this
    · intro p hp
      have := List.all_eq_true.mp hres _ (List.mem_map_of_mem _ hp)
      simpa using this
  · rintro ⟨hc, hres⟩
    refine ⟨sliceRes dr p0, ?_⟩
    have hcb : ((p0 :: ps).map (fun p => continuousB (pyslice dr p.1 p.2))).all
        (fun c => c) = true := by
      rw [List.all_eq_true]
      intro x hx
      obtain ⟨p, hp, rfl⟩ := List.mem_map.mp hx
      exact hc p hp
    have hrb : ((p0 :: ps).map (fun p => sliceRes dr p)).all
        (fun r => r = sliceRes dr p0) = true := by
      rw [List.all_eq_true]
      intro x hx
      obtain ⟨p, hp, rfl⟩ := List.mem_map.mp hx
      simpa using hres p hp
    rw [hcb, hrb]
    rfl

/-- Witness for the amended C5 at a concrete regular single-chunk
input. -/
theorem C5_chunked_regularity_witness :
    (∃ r, continuous_timedeltas_in_nonzero_chunks [0, ONE_HOUR, 2 * ONE_HOUR]
        [0] [3] = .ok (true, r)) ↔
      ((∀ p ∈ ([0] : List ℕ).zip ([3] : List ℕ),
          continuousB (pyslice [0, ONE_HOUR, 2 * ONE_HOUR] p.1 p.2) = true) ∧
        ∀ p ∈ ([0] : List ℕ).zip ([3] : List ℕ),
          sliceRes [0, ONE_HOUR, 2 * ONE_HOUR] p =
            sliceRes [0, ONE_HOUR, 2 * ONE_HOUR]
              ((([0] : List ℕ).zip ([3] : List ℕ)).headD (0, 0))) :=
  C5_chunked_regularity.1 [0, ONE_HOUR, 2 * ONE_HOUR] [0] [3]
    (by decide) (by decide) (by decide)

/-! ## Lemmas about the orchestrator's control flow -/

lemma except_bind_eq_ok {ε α β : Type} (x : Except ε α) (f : α → Except ε β) (b : β) :
    (x >>= f) = .ok b ↔ ∃ a, x = .ok a ∧ f a = .ok b := by
  cases x with
  | ok a =>
    constructor
    · intro h
      exact ⟨a, rfl, h⟩
    · rintro ⟨a', ha', hf⟩
      cases ha'
      exact hf
  | error e =>
    constructor
    · intro h
      cases h
    · rintro ⟨a', ha', -⟩
      cases ha'

lemma except_bind_eq_error {ε α β : Type} (x : Except ε α) (f : α → Except ε β) (e : ε) :
    (x >>= f) = .error e ↔ (x = .error e ∨ ∃ a, x = .ok a ∧ f a = .error e) := by
  cases x with
  | ok a =>
    constructor
    · intro h
      exact Or.inr ⟨a, rfl, h⟩
    · rintro (h | ⟨a', ha', hf⟩)
      · cases h
      · cases ha'
        exact hf
  | error e' =>
    constructor
    · intro h
      cases h
      exact Or.inl rfl
    · rintro (h | ⟨a', ha', -⟩)
      · cases h
        rfl
      · cases ha'

/-- Unfolding of `swe_delta_snow` past a successful input preparation. -/
lemma swe_delta_snow_eq (engine : List (Option ℚ) → ℚ → List ℚ)
    (interp : List (Option ℚ) → List (Option ℚ)) (data : PdsData)
    (hsU sweU : String) (zp tz si : Bool) (mg : ℕ)
    (f : ℚ) (d : List ℤ) (Hr : List (Option ℚ))
    (hprep : prepared data hsU sweU = .ok (f, d, Hr)) :
    swe_delta_snow engine interp data hsU sweU zp tz si mg =
      (let mh := gapResolved interp zp tz si mg d Hr
       nanCheck zp si mh.2 >>= fun _ =>
       nonnegCheck mh.2 >>= fun _ =>
       numericCheck mh.2 >>= fun _ =>
       firstCheck mh.2 >>= fun _ =>
       continuityCheck d (get_nonzero_chunk_idxs mh.2).1
         (get_nonzero_chunk_idxs mh.2).2 >>= fun resolution =>
       pure ((remask mh.1 (deltasnow_on_nonzero_chunks engine mh.2
           (List.replicate mh.2.length 0) (get_nonzero_chunk_idxs mh.2).1
           (get_nonzero_chunk_idxs mh.2).2 resolution)).map
         (Option.map (fun v => v * (1 / 1000) / f)))) := by
  unfold swe_delta_snow
  rw [hprep]
  rfl

/-- The date列 and the depth series produced by `prepared` have the same
length (both columns of the sorted frame). -/
lemma prepared_lengths (data : PdsData) (hsU sweU : String) (f : ℚ)
    (d : List ℤ) (Hr : List (Option ℚ))
    (hprep : prepared data hsU sweU = .ok (f, d, Hr)) :
    d.length = Hr.length := by
  unfold prepared at hprep
  rcases hfin : UNIT_FACTOR hsU with - | fin <;> rw [hfin] at hprep
  · cases hprep
  rcases hfout : UNIT_FACTOR sweU with - | fout <;> rw [hfout] at hprep
  · cases hprep
  rcases hnorm : normalizeData data with e | p <;> rw [hnorm] at hprep
  · cases hprep
  simp only [Except.bind, pure, Except.pure, Except.ok.injEq, Prod.mk.injEq] at hprep
  obtain ⟨-, rfl, rfl⟩ := hprep
  simp

lemma get_trailingzero_gap_idxs_length (H : List (Option ℚ)) :
    (get_trailingzero_gap_idxs H).length = H.length := by
  simp [get_trailingzero_gap_idxs]

lemma get_zeropadded_gap_idxs_length (H : List (Option ℚ)) :
    (get_zeropadded_gap_idxs H).length = H.length := by
  simp [get_zeropadded_gap_idxs, markRanges]

lemma zeroResolve_length (m : List Bool) (H : List (Option ℚ)) :
    (zeroResolve m H).length = min m.length H.length := by
  simp [zeroResolve]

lemma fill_small_gaps_length (interp : List (Option ℚ) → List (Option ℚ))
    (H : List (Option ℚ)) (d : List ℤ) (mg : ℕ) :
    (fill_small_gaps interp H d mg).length = H.length := by
  simp [fill_small_gaps]

lemma interpStage_length (interp : List (Option ℚ) → List (Option ℚ))
    (si : Bool) (mg : ℕ) (d : List ℤ) (H : List (Option ℚ)) :
    (interpStage interp si mg d H).length = H.length := by
  unfold interpStage
  split
  · rw [fill_small_gaps_length]
  · rfl

/-- `gapResolved` preserves the series length. -/
lemma gapResolved_length (interp : List (Option ℚ) → List (Option ℚ))
    (zp tz si : Bool) (mg : ℕ) (d : List ℤ) (Hr : List (Option ℚ)) :
    (gapResolved interp zp tz si mg d Hr).2.length = Hr.length := by
  have hmask : ∀ b : Bool, ((if b then get_trailingzero_gap_idxs Hr
      else get_zeropadded_gap_idxs Hr)).length = Hr.length := by
    intro b
    cases b
    · simp [get_zeropadded_gap_idxs_length]
    · simp [get_trailingzero_gap_idxs_length]
  unfold gapResolved
  by_cases hz : (zp || tz) = true <;> simp only [hz, if_true, if_false] <;>
    rw [interpStage_length] <;>
    simp [zeroResolve_length, hmask]

/-- Core of the gap-mask round trip: when the orchestrator kept a gap mask
and the call returns a series, that series is missing exactly at masked
positions — whatever the engine computed there. -/
lemma swe_ok_mask_iff (engine : List (Option ℚ) → ℚ → List ℚ)
    (interp : List (Option ℚ) → List (Option ℚ)) (data : PdsData)
    (hsU sweU : String) (zp tz si : Bool) (mg : ℕ)
    (f : ℚ) (d : List ℤ) (Hr : List (Option ℚ)) (out : List (Option ℚ))
    (m : List Bool)
    (hprep : prepared data hsU sweU = .ok (f, d, Hr))
    (hm : (gapResolved interp zp tz si mg d Hr).1 = some m)
    (hok : swe_delta_snow engine interp data hsU sweU zp tz si mg = .ok out) :
    ∀ i, i < out.length → (out.getD i (some 0) = none ↔ m.getD i false = true) := by
  rw [swe_delta_snow_eq engine interp data hsU sweU zp tz si mg f d Hr hprep] at hok
  simp only at hok
  rw [except_bind_eq_ok] at hok
  obtain ⟨-, -, hok⟩ := hok
  rw [except_bind_eq_ok] at hok
  obtain ⟨-, -, hok⟩ := hok
  rw [except_bind_eq_ok] at hok
  obtain ⟨-, -, hok⟩ := hok
  rw [except_bind_eq_ok] at hok
  obtain ⟨-, -, hok⟩ := hok
  rw [except_bind_eq_ok] at hok
  obtain ⟨res, -, hok⟩ := hok
  have hout : out = (remask (gapResolved interp zp tz si mg d Hr).1
      (deltasnow_on_nonzero_chunks engine (gapResolved interp zp tz si mg d Hr).2
        (List.replicate (gapResolved interp zp tz si mg d Hr).2.length 0)
        (get_nonzero_chunk_idxs (gapResolved interp zp tz si mg d Hr).2).1
        (get_nonzero_chunk_idxs (gapResolved interp zp tz si mg d Hr).2).2 res)).map
      (Option.map (fun v => v * (1 / 1000) / f)) := by
    have := hok
    simp only [pure, Except.pure, Except.ok.injEq] at this
    exact this.symm
  subst hout
  intro i hi
  rw [hm] at hi ⊢
  set swe := deltasnow_on_nonzero_chunks engine (gapResolved interp zp tz si mg d Hr).2
    (List.replicate (gapResolved interp zp tz si mg d Hr).2.length 0)
    (get_nonzero_chunk_idxs (gapResolved interp zp tz si mg d Hr).2).1
    (get_nonzero_chunk_idxs (gapResolved interp zp tz si mg d Hr).2).2 res with hswe
  have hlen : ((remask (some m) swe).map
      (Option.map (fun v => v * (1 / 1000) / f))).length = swe.length := by
    simp [remask]
  rw [hlen] at hi
  have hgetr : (remask (some m) swe).getD i none =
      (if m.getD i false then none else some (swe.getD i 0)) := by
    simp only [remask]
    rw [List.getD_eq_getElem?_getD, List.getElem?_map, List.getElem?_range hi]
    rfl
  have hgeto : ((remask (some m) swe).map
        (Option.map (fun v => v * (1 / 1000) / f))).getD i (some 0) =
      Option.map (fun v => v * (1 / 1000) / f) ((remask (some m) swe).getD i none) := by
    rw [List.getD_eq_getElem?_getD, List.getElem?_map]
    have hi' : i < (remask (some m) swe).length := by
      simp [remask, hi]
    rw [List.getElem?_eq_getElem hi']
    simp [List.getD_eq_getElem?_getD, List.getElem?_eq_getElem hi']
  rw [hgeto, hgetr]
  by_cases hmi : m.getD i false = true
  · simp [hmi]
  · simp [hmi]

/-- The mask kept by `gapResolved`: the trailing-zero mask when
`ignore_trailingzero_gaps`, the strict zero-padded mask when only
`ignore_zeropadded_gaps`, and nothing otherwise. -/
lemma gapResolved_fst (interp : List (Option ℚ) → List (Option ℚ))
    (zp tz si : Bool) (mg : ℕ) (d : List ℤ) (Hr : List (Option ℚ)) :
    (gapResolved interp zp tz si mg d Hr).1 =
      if zp || tz then
        some (if tz then get_trailingzero_gap_idxs Hr else get_zeropadded_gap_idxs Hr)
      else none := by
  unfold gapResolved
  split <;> rfl

/-- C3: round-trip of gap masking — whenever a zero-padded/trailing gap
mask was kept (`gapResolved` returned `some m`), a successful
`swe_delta_snow` call returns a series that is missing (`none`) exactly
at the masked positions, for every engine and interpolator (so
regardless of the value computed internally there). -/
theorem C3_gap_mask_roundtrip (engine : List (Option ℚ) → ℚ → List ℚ)
    (interp : List (Option ℚ) → List (Option ℚ)) (data : PdsData)
    (hsU sweU : String) (zp tz si : Bool) (mg : ℕ)
    (f : ℚ) (d : List ℤ) (Hr : List (Option ℚ)) (out : List (Option ℚ))
    (m : List Bool)
    (hprep : prepared data hsU sweU = .ok (f, d, Hr))
    (hm : (gapResolved interp zp tz si mg d Hr).1 = some m)
    (hok : swe_delta_snow engine interp data hsU sweU zp tz si mg = .ok out) :
    ∀ i, i < out.length → (out.getD i (some 0) = none ↔ m.getD i false = true) :=
  swe_ok_mask_iff engine interp data hsU sweU zp tz si mg f d Hr out m hprep hm hok

/-- Witness for C3 at a concrete input (`[0, NaN]` daily, trailing-zero
mode): the returned series is missing exactly at the masked position. -/
theorem C3_gap_mask_roundtrip_witness :
    (([some 0, none] : List (Option ℚ)).getD 1 (some 0) = none ↔
      ([false, true] : List Bool).getD 1 false = true) :=
  C3_gap_mask_roundtrip (fun _ _ => []) id
    (.frame ["date", "hs"] [0, 86400000000000] [some 0, none]) "m" "mm"
    false true false 3 (1 / 1000) [0, 86400000000000] [some 0, none]
    [some 0, none] [false, true]
    (by with_unfolding_all rfl) (by with_unfolding_all rfl)
    (by with_unfolding_all rfl) 1 (by decide)

/-! ## Characterization of the trailing-zero gap mask (C2) -/

lemma hdrop_cons {H : List (Option ℚ)} {k : ℕ} (h : k < H.length) :
    H.drop k = hget H k :: H.drop (k + 1) := by
  rw [List.drop_eq_getElem_cons h, hget_eq_getElem h]

lemma firstPresent_drop_of_none {H : List (Option ℚ)} {k : ℕ}
    (h : k < H.length) (hk : hget H k = none) :
    firstPresent (H.drop k) = firstPresent (H.drop (k + 1)) := by
  rw [hdrop_cons h, hk]
  rfl

lemma firstPresent_drop_of_some {H : List (Option ℚ)} {k : ℕ} {q : ℚ}
    (h : k < H.length) (hk : hget H k = some q) :
    firstPresent (H.drop k) = some q := by
  rw [hdrop_cons h, hk]
  rfl

/-- Skipping a block of missing values does not change the first present
value of a suffix. -/
lemma firstPresent_skip (k : ℕ) :
    ∀ (H : List (Option ℚ)) (a : ℕ), a + k ≤ H.length →
      (∀ j, a ≤ j → j < a + k → hget H j = none) →
      firstPresent (H.drop a) = firstPresent (H.drop (a + k)) := by
  induction k with
  | zero => intro H a _ _; rfl
  | succ k ih =>
    intro H a hle hall
    have ha : hget H a = none := hall a (le_refl a) (by omega)
    rw [firstPresent_drop_of_none (by omega) ha]
    have heq : a + 1 + k = a + (k + 1) := by omega
    have := ih H (a + 1) (by omega) (fun j hj1 hj2 => hall j (by omega) (by omega))
    rw [this, heq]

/-- Entry `i` of the trailing-zero mask, for `i` in range. -/
lemma trailing_getD {H : List (Option ℚ)} {i : ℕ} (h : i < H.length) :
    (get_trailingzero_gap_idxs H).getD i false =
      decide (hget H i = none ∧
        (firstPresent (H.drop (i + 1)) = none ∨
          firstPresent (H.drop (i + 1)) = some 0)) := by
  unfold get_trailingzero_gap_idxs
  rw [List.getD_eq_getElem?_getD, List.getElem?_map, List.getElem?_range h]
  rfl

/-- Entries beyond the series length are unmarked. -/
lemma trailing_getD_ge {H : List (Option ℚ)} {i : ℕ} (h : H.length ≤ i) :
    (get_trailingzero_gap_idxs H).getD i false = false := by
  unfold get_trailingzero_gap_idxs
  rw [List.getD_eq_getElem?_getD]
  rw [List.getElem?_eq_none]
  · rfl
  · simpa using h

lemma hget_ge {H : List (Option ℚ)} {i : ℕ} (h : H.length ≤ i) :
    hget H i = none := by
  unfold hget
  rw [List.getD_eq_getElem?_getD, List.getElem?_eq_none (by simpa using h)]
  rfl

/-- C2 (spec-modelled trailing-zero classification, see
`get_trailingzero_gap_idxs`): the mask marks only missing positions; a
maximal run of missing values is marked exactly when the value
immediately after the run is zero or the run reaches the end of the
series (no constraint on the value before the run); a successful
`swe_delta_snow` call in trailing-zero mode returns NaN exactly at the
masked positions of the prepared series, for every engine; and the mask
reproduces the repository's own test vectors for
`require_leading_zero=False`. -/
theorem C2_trailingzero_gap_mode :
    (∀ (H : List (Option ℚ)) (i : ℕ),
      (get_trailingzero_gap_idxs H).getD i false = true → hget H i = none) ∧
    (∀ (H : List (Option ℚ)) (s e : ℕ), s ≤ e → e < H.length →
      (∀ j, s ≤ j → j ≤ e → hget H j = none) →
      (s = 0 ∨ ¬ hget H (s - 1) = none) →
      (e = H.length - 1 ∨ ¬ hget H (e + 1) = none) →
      ((∀ j, s ≤ j → j ≤ e → (get_trailingzero_gap_idxs H).getD j false = true) ↔
        (e = H.length - 1 ∨ hget H (e + 1) = some 0))) ∧
    (∀ (engine : List (Option ℚ) → ℚ → List ℚ)
      (interp : List (Option ℚ) → List (Option ℚ)) (data : PdsData)
      (hsU sweU : String) (zp si : Bool) (mg : ℕ)
      (f : ℚ) (d : List ℤ) (Hr out : List (Option ℚ)),
      prepared data hsU sweU = .ok (f, d, Hr) →
      swe_delta_snow engine interp data hsU sweU zp true si mg = .ok out →
      ∀ i, i < out.length →
        (out.getD i (some 0) = none ↔
          (get_trailingzero_gap_idxs Hr).getD i false = true)) ∧
    get_trailingzero_gap_idxs [some 1, some 1, none, some 0, some 1] =
      [false, false, true, false, false] ∧
    get_trailingzero_gap_idxs [some 1, some 0, none, some 1, some 1] =
      [false, false, false, false, false] ∧
    get_trailingzero_gap_idxs [none, none, some 0, some 3, some 4, some 5, some 6,
        some 7, some 7, some 3, none, none, some 0, some 9, some 0, none, none,
        none, some 0, some 7, some 0, none, none, some 8, some 0, some 0, none,
        none, none] =
      [true, true, false, false, false, false, false, false, false, false, true,
        true, false, false, false, true, true, true, false, false, false, false,
        false, false, false, false, true, true, true] := by
  refine ⟨?_, ?_, ?_, by decide, by decide, by decide⟩
  · intro H i hmask
    rcases Nat.lt_or_ge i H.length with h | h
    · rw [trailing_getD h, decide_eq_true_eq] at hmask
      exact hmask.1
    · rw [trailing_getD_ge h] at hmask
      cases hmask
  · intro H s e hse he hrun hleft hright
    have hfp : ∀ j, s ≤ j → j ≤ e →
        firstPresent (H.drop (j + 1)) = firstPresent (H.drop (e + 1)) := by
      intro j hj1 hj2
      have heq : j + 1 + (e - j) = e + 1 := by omega
      have := firstPresent_skip (e - j) H (j + 1) (by omega)
        (fun x hx1 hx2 => hrun x (by omega) (by omega))
      rw [this, heq]
    constructor
    · intro hmask
      have hs := hmask s (le_refl s) hse
      rw [trailing_getD (by omega), decide_eq_true_eq] at hs
      obtain ⟨-, hor⟩ := hs
      rw [hfp s (le_refl s) hse] at hor
      by_cases hlast : e = H.length - 1
      · exact Or.inl hlast
      · have he1 : e + 1 < H.length := by omega
        obtain ⟨q, hq⟩ : ∃ q, hget H (e + 1) = some q := by
          rcases hh : hget H (e + 1) with - | q
          · exact absurd hh (hright.resolve_left hlast)
          · exact ⟨q, rfl⟩
        rw [firstPresent_drop_of_some he1 hq] at hor
        rcases hor with h | h
        · cases h
        · refine Or.inr ?_
          rw [hq]
          exact h
    · intro hor j hj1 hj2
      rw [trailing_getD (by omega), decide_eq_true_eq]
      refine ⟨hrun j hj1 hj2, ?_⟩
      rw [hfp j hj1 hj2]
      rcases hor with hlast | hz
      · have : e + 1 = H.length := by omega
        rw [this, List.drop_length]
        exact Or.inl rfl
      · have he1 : e + 1 < H.length := by
          by_contra hcon
          rw [hget_ge (by omega)] at hz
          cases hz
        rw [firstPresent_drop_of_some he1 hz]
        exact Or.inr rfl
  · intro engine interp data hsU sweU zp si mg f d Hr out hprep hok i hi
    have hm : (gapResolved interp zp true si mg d Hr).1 =
        some (get_trailingzero_gap_idxs Hr) := by
      rw [gapResolved_fst]
      simp
    exact swe_ok_mask_iff engine interp data hsU sweU zp true si mg f d Hr out
      (get_trailingzero_gap_idxs Hr) hprep hm hok i hi

/-- Witness for C2 at a concrete input: position 0 of `[NaN]` is marked
by the trailing-zero mask (run reaching the end of series), and it is
indeed a missing value. -/
theorem C2_trailingzero_gap_mode_witness :
    hget [none] 0 = none :=
  C2_trailingzero_gap_mode.1 [none] 0 (by decide)

/-! ## Error classification of the validation stages (C7, C8) -/

lemma except_error_bind {ε α β : Type} (e : ε) (f : α → Except ε β) :
    ((.error e : Except ε α) >>= f) = .error e := rfl

lemma nanCheck_error_isValue {zp si : Bool} {H : List (Option ℚ)} {e : PdsErr}
    (h : nanCheck zp si H = .error e) : e.isValueError = true := by
  simp only [nanCheck] at h
  split at h
  · cases h
    rfl
  split at h
  · cases h
    rfl
  split at h
  · cases h
    rfl
  · cases h

lemma nonnegCheck_error_isValue {H : List (Option ℚ)} {e : PdsErr}
    (h : nonnegCheck H = .error e) : e.isValueError = true := by
  unfold nonnegCheck at h
  split at h
  · cases h
    rfl
  · cases h

lemma numericCheck_ok (H : List (Option ℚ)) : numericCheck H = .ok () := by
  unfold numericCheck
  simp

lemma firstCheck_cases {H : List (Option ℚ)} {e : PdsErr}
    (h : firstCheck H = .error e) :
    (H = [] ∧ e = .indexError) ∨
      (¬ hget H 0 = some 0 ∧ e = .valueInitialCond) := by
  rcases H with - | ⟨v, t⟩
  · rw [show firstCheck [] = .error .indexError from rfl] at h
    cases h
    exact Or.inl ⟨rfl, rfl⟩
  · by_cases hv : v = some 0
    · rw [show firstCheck (v :: t) = .ok () from by
        unfold firstCheck; simp [hv]] at h
      cases h
    · rw [show firstCheck (v :: t) = .error .valueInitialCond from by
        unfold firstCheck; simp [hv]] at h
      cases h
      exact Or.inr ⟨by simpa [hget] using hv, rfl⟩

lemma firstCheck_ok_of_zero {H : List (Option ℚ)} (h0 : hget H 0 = some 0)
    (hne : H ≠ []) : firstCheck H = .ok () := by
  unfold firstCheck
  rcases H with - | ⟨v, t⟩
  · exact absurd rfl hne
  · have : v = some 0 := by simpa [hget] using h0
    simp [this]

lemma tdeltas_length (dr : List ℤ) : (tdeltas dr).length = dr.length - 1 := by
  unfold tdeltas
  rcases dr with - | ⟨x, rest⟩
  · rfl
  · simp

lemma tdeltas_eq_nil_iff (dr : List ℤ) : tdeltas dr = [] ↔ dr.length ≤ 1 := by
  rw [← List.length_eq_zero, tdeltas_length]
  omega

lemma ctd_error_eq {dr : List ℤ} {e : PdsErr}
    (h : continuous_timedeltas dr = .error e) :
    e = .unboundLocal ∧ dr.length ≤ 1 := by
  unfold continuous_timedeltas at h
  rcases htd : tdeltas dr with - | ⟨d0, ds⟩ <;> rw [htd] at h
  · cases h
    exact ⟨rfl, (tdeltas_eq_nil_iff dr).mp htd⟩
  · cases h

lemma mapM_error_exists {α : Type} (f : α → Except PdsErr (Bool × ℚ)) :
    ∀ (l : List α) (e : PdsErr), l.mapM f = .error e →
      ∃ x ∈ l, f x = .error e := by
  intro l
  induction l with
  | nil => intro e h; cases h
  | cons a rest ih =>
    intro e h
    rw [List.mapM_cons] at h
    rcases ha : f a with ea | b <;> rw [ha] at h
    · cases h
      exact ⟨a, List.mem_cons_self a rest, ha⟩
    · rw [except_bind_eq_error] at h
      rcases h with h | ⟨b', hb', h⟩
      · cases h
      · rw [except_bind_eq_error] at h
        rcases h with h | ⟨bs, hbs, h⟩
        · obtain ⟨x, hx, hfx⟩ := ih e h
          exact ⟨x, List.mem_cons_of_mem a hx, hfx⟩
        · cases h

lemma prepared_error_cases {data : PdsData} {hsU sweU : String} {e : PdsErr}
    (h : prepared data hsU sweU = .error e) :
    (e = .assertHsUnit ∧ UNIT_FACTOR hsU = none) ∨
      (e = .assertSweUnit ∧ UNIT_FACTOR sweU = none) ∨
      e.isValueError = true := by
  unfold prepared at h
  rcases hfin : UNIT_FACTOR hsU with - | fin <;> rw [hfin] at h
  · cases h
    exact Or.inl ⟨rfl, rfl⟩
  rcases hfout : UNIT_FACTOR sweU with - | fout <;> rw [hfout] at h
  · cases h
    exact Or.inr (Or.inl ⟨rfl, rfl⟩)
  rcases hnorm : normalizeData data with en | p <;> rw [hnorm] at h
  · have h' : (Except.error en : Except PdsErr (ℚ × List ℤ × List (Option ℚ))) =
        .error e := h
    cases h'
    refine Or.inr (Or.inr ?_)
    unfold normalizeData at hnorm
    rcases data with ⟨cols, d0, h0⟩ | ⟨dt, idx, vals⟩ | -
    · by_cases hc : ("date" ∈ cols ∧ "hs" ∈ cols)
      · simp [hc] at hnorm
      · simp only [if_neg hc] at hnorm
        cases hnorm
        rfl
    · by_cases hdt : dt = true
      · simp only [hdt, if_true] at hnorm
        cases hnorm
      · simp only [hdt, if_false, Bool.false_eq_true] at hnorm
        cases hnorm
        rfl
    · cases hnorm
      rfl
  · rcases p with ⟨d0, h0⟩
    have h'' : (pure (fout, (sortByDate d0 h0).map Prod.fst,
        (sortByDate d0 h0).map (fun pr => Option.map (fun q => q * fin) pr.2)) :
        Except PdsErr (ℚ × List ℤ × List (Option ℚ))) = .error e := h
    cases h''

lemma swe_of_prepared_error (engine : List (Option ℚ) → ℚ → List ℚ)
    (interp : List (Option ℚ) → List (Option ℚ)) (data : PdsData)
    (hsU sweU : String) (zp tz si : Bool) (mg : ℕ) (e : PdsErr)
    (h : prepared data hsU sweU = .error e) :
    swe_delta_snow engine interp data hsU sweU zp tz si mg = .error e := by
  unfold swe_delta_snow
  rw [h]
  rfl

lemma pyslice_length {α : Type} (l : List α) (a b : ℕ) :
    (pyslice l a b).length = min (b - a) (l.length - a) := by
  simp [pyslice]

/-- Given that every chunk slice spans at least two timestamps, the
chunked regularity check can fail only on the empty-chunk-list `res[0]`
access. -/
lemma ctinc_error_cases (dr : List ℤ) (starts stops : List ℕ) (e : PdsErr)
    (hslices : ∀ p ∈ starts.zip stops, tdeltas (pyslice dr p.1 p.2) ≠ [])
    (h : continuous_timedeltas_in_nonzero_chunks dr starts stops = .error e) :
    e = .indexError ∧ starts = [] := by
  have hmm := mapM_ctd_ok dr (starts.zip stops) hslices
  have hbind : ∀ {α β : Type} (x : α) (f : α → Except PdsErr β),
      (Except.ok x >>= f) = f x := fun _ _ => rfl
  unfold continuous_timedeltas_in_nonzero_chunks at h
  simp only [hmm, hbind] at h
  set res := (List.map Prod.snd ((starts.zip stops).map
      (fun p => (continuousB (pyslice dr p.1 p.2), sliceRes dr p))) ++
    List.replicate (starts.length - (starts.zip stops).length) 0 : List ℚ) with hres
  rcases hr : res with - | ⟨r0, rs⟩ <;> rw [hr] at h
  · refine ⟨by cases h; rfl, ?_⟩
    rw [hres] at hr
    rcases List.append_eq_nil.mp hr with ⟨h1, h2⟩
    have hz : starts.zip stops = [] := by
      rcases hzz : starts.zip stops with - | ⟨q, qs⟩
      · rfl
      · rw [hzz] at h1
        cases h1
    have hlen0 : starts.length = 0 := by
      have := (List.replicate_eq_nil_iff (0 : ℚ)).mp h2
      rw [hz] at this
      simpa using this
    exact List.length_eq_zero.mp hlen0
  · cases h

lemma except_ok_bind {ε α β : Type} (x : α) (f : α → Except ε β) :
    ((.ok x : Except ε α) >>= f) = f x := rfl

lemma nanCheck_error_mem {zp si : Bool} {H : List (Option ℚ)} {e : PdsErr}
    (h : nanCheck zp si H = .error e) :
    e = .valueNanStrict ∨ e = .valueNanZeropadded ∨ e = .valueNanInterp := by
  simp only [nanCheck] at h
  split at h
  · cases h
    exact Or.inl rfl
  split at h
  · cases h
    exact Or.inr (Or.inl rfl)
  split at h
  · cases h
    exact Or.inr (Or.inr rfl)
  · cases h

lemma nonnegCheck_error_eq {H : List (Option ℚ)} {e : PdsErr}
    (h : nonnegCheck H = .error e) : e = .valueNegative := by
  unfold nonnegCheck at h
  split at h
  · cases h
    rfl
  · cases h

lemma firstCheck_error_of_ne {H : List (Option ℚ)} (hne : H ≠ [])
    (h0 : ¬ hget H 0 = some 0) :
    firstCheck H = .error .valueInitialCond := by
  unfold firstCheck
  rcases H with - | ⟨v, t⟩
  · exact absurd rfl hne
  · have : ¬ v = some 0 := by simpa [hget] using h0
    simp [this]

lemma ctinc_error_mem {dr : List ℤ} {starts stops : List ℕ} {e : PdsErr}
    (h : continuous_timedeltas_in_nonzero_chunks dr starts stops = .error e) :
    e = .unboundLocal ∨ e = .indexError := by
  unfold continuous_timedeltas_in_nonzero_chunks at h
  rcases hm : (starts.zip stops).mapM
      (fun p => continuous_timedeltas (pyslice dr p.1 p.2)) with em | fl
  · simp only [hm, except_error_bind] at h
    have hee : em = e := by cases h; rfl
    subst hee
    obtain ⟨p, -, hp⟩ := mapM_error_exists _ _ em hm
    exact Or.inl (ctd_error_eq hp).1
  · simp only [hm, except_ok_bind] at h
    rcases hr : (List.map Prod.snd fl ++
        List.replicate (starts.length - (starts.zip stops).length) (0 : ℚ)) with - | ⟨r0, rs⟩ <;>
      rw [hr] at h
    · cases h
      exact Or.inr rfl
    · cases h

lemma continuityCheck_error_mem {d : List ℤ} {s t : List ℕ} {e : PdsErr}
    (h : continuityCheck d s t = .error e) :
    e = .unboundLocal ∨ e = .indexError ∨ e = .valueIrregular := by
  unfold continuityCheck at h
  rcases hc : continuous_timedeltas d with ec | ⟨cont, res⟩
  · simp only [hc, except_error_bind] at h
    have : ec = e := by cases h; rfl
    subst this
    exact Or.inl (ctd_error_eq hc).1
  · simp only [hc, except_ok_bind] at h
    by_cases hcont : cont = true
    · simp only [hcont, if_true] at h
      cases h
    · simp only [hcont, if_false, Bool.false_eq_true] at h
      rcases hc2 : continuous_timedeltas_in_nonzero_chunks d s t with e2 | ⟨c2, r2⟩
      · simp only [hc2, except_error_bind] at h
        have : e2 = e := by cases h; rfl
        subst this
        rcases ctinc_error_mem hc2 with h' | h'
        · exact Or.inl h'
        · exact Or.inr (Or.inl h')
      · simp only [hc2, except_ok_bind] at h
        by_cases hc2b : c2 = true
        · simp only [hc2b, if_true] at h
          cases h
        · simp only [hc2b, if_false, Bool.false_eq_true] at h
          cases h
          exact Or.inr (Or.inr rfl)

/-- Let-free unfolding of `swe_delta_snow` past a successful input
preparation. -/
lemma swe_delta_snow_eq' (engine : List (Option ℚ) → ℚ → List ℚ)
    (interp : List (Option ℚ) → List (Option ℚ)) (data : PdsData)
    (hsU sweU : String) (zp tz si : Bool) (mg : ℕ)
    (f : ℚ) (d : List ℤ) (Hr : List (Option ℚ))
    (hprep : prepared data hsU sweU = .ok (f, d, Hr)) :
    swe_delta_snow engine interp data hsU sweU zp tz si mg =
      (nanCheck zp si (gapResolved interp zp tz si mg d Hr).2 >>= fun _ =>
       nonnegCheck (gapResolved interp zp tz si mg d Hr).2 >>= fun _ =>
       numericCheck (gapResolved interp zp tz si mg d Hr).2 >>= fun _ =>
       firstCheck (gapResolved interp zp tz si mg d Hr).2 >>= fun _ =>
       continuityCheck d
         (get_nonzero_chunk_idxs (gapResolved interp zp tz si mg d Hr).2).1
         (get_nonzero_chunk_idxs (gapResolved interp zp tz si mg d Hr).2).2 >>=
           fun resolution =>
       pure ((remask (gapResolved interp zp tz si mg d Hr).1
           (deltasnow_on_nonzero_chunks engine (gapResolved interp zp tz si mg d Hr).2
             (List.replicate (gapResolved interp zp tz si mg d Hr).2.length 0)
             (get_nonzero_chunk_idxs (gapResolved interp zp tz si mg d Hr).2).1
             (get_nonzero_chunk_idxs (gapResolved interp zp tz si mg d Hr).2).2
             resolution)).map
         (Option.map (fun v => v * (1 / 1000) / f)))) := by
  rw [swe_delta_snow_eq engine interp data hsU sweU zp tz si mg f d Hr hprep]

/-- C7, part used for both directions: the initial-condition family of
validations, as one claim.  (a) If, after gap resolution, the series is
nonempty and its first value is not zero, the call fails with a
`ValueError` — the same one for every engine, so before any simulation.
(b) If the first resolved value is zero, the initial-condition error is
never raised. -/
theorem C7_initial_condition :
    (∀ (interp : List (Option ℚ) → List (Option ℚ)) (data : PdsData)
      (hsU sweU : String) (zp tz si : Bool) (mg : ℕ)
      (f : ℚ) (d : List ℤ) (Hr : List (Option ℚ)),
      prepared data hsU sweU = .ok (f, d, Hr) →
      (gapResolved interp zp tz si mg d Hr).2 ≠ [] →
      ¬ hget (gapResolved interp zp tz si mg d Hr).2 0 = some 0 →
      ∃ e, e.isValueError = true ∧
        ∀ engine, swe_delta_snow engine interp data hsU sweU zp tz si mg = .error e) ∧
    (∀ (engine : List (Option ℚ) → ℚ → List ℚ)
      (interp : List (Option ℚ) → List (Option ℚ)) (data : PdsData)
      (hsU sweU : String) (zp tz si : Bool) (mg : ℕ)
      (f : ℚ) (d : List ℤ) (Hr : List (Option ℚ)),
      prepared data hsU sweU = .ok (f, d, Hr) →
      hget (gapResolved interp zp tz si mg d Hr).2 0 = some 0 →
      ¬ swe_delta_snow engine interp data hsU sweU zp tz si mg =
        .error .valueInitialCond) := by
  constructor
  · intro interp data hsU sweU zp tz si mg f d Hr hprep hne h0
    rcases hnan : nanCheck zp si (gapResolved interp zp tz si mg d Hr).2 with en | u
    · refine ⟨en, nanCheck_error_isValue hnan, fun engine => ?_⟩
      rw [swe_delta_snow_eq' engine interp data hsU sweU zp tz si mg f d Hr hprep]
      simp only [hnan, except_error_bind]
    · rcases hneg : nonnegCheck (gapResolved interp zp tz si mg d Hr).2 with en | u2
      · refine ⟨en, nonnegCheck_error_isValue hneg, fun engine => ?_⟩
        rw [swe_delta_snow_eq' engine interp data hsU sweU zp tz si mg f d Hr hprep]
        simp only [hnan, except_ok_bind, hneg, except_error_bind]
      · refine ⟨.valueInitialCond, rfl, fun engine => ?_⟩
        rw [swe_delta_snow_eq' engine interp data hsU sweU zp tz si mg f d Hr hprep]
        simp only [hnan, except_ok_bind, hneg, numericCheck_ok,
          firstCheck_error_of_ne hne h0, except_error_bind]
  · intro engine interp data hsU sweU zp tz si mg f d Hr hprep h0 hcon
    have hne : (gapResolved interp zp tz si mg d Hr).2 ≠ [] := by
      intro hnil
      rw [hnil] at h0
      cases h0
    rw [swe_delta_snow_eq' engine interp data hsU sweU zp tz si mg f d Hr hprep]
      at hcon
    rcases hnan : nanCheck zp si (gapResolved interp zp tz si mg d Hr).2 with en | u
    · simp only [hnan, except_error_bind] at hcon
      have : en = .valueInitialCond := by cases hcon; rfl
      subst this
      rcases nanCheck_error_mem hnan with h | h | h <;> cases h
    · simp only [hnan, except_ok_bind] at hcon
      rcases hneg : nonnegCheck (gapResolved interp zp tz si mg d Hr).2 with en | u2
      · simp only [hneg, except_error_bind] at hcon
        have : en = .valueInitialCond := by cases hcon; rfl
        subst this
        cases nonnegCheck_error_eq hneg
      · simp only [hneg, except_ok_bind, numericCheck_ok,
          firstCheck_ok_of_zero h0 hne] at hcon
        rcases hcc : continuityCheck d
            (get_nonzero_chunk_idxs (gapResolved interp zp tz si mg d Hr).2).1
            (get_nonzero_chunk_idxs (gapResolved interp zp tz si mg d Hr).2).2
          with ec | r
        · simp only [hcc, except_error_bind] at hcon
          have : ec = .valueInitialCond := by cases hcon; rfl
          subst this
          rcases continuityCheck_error_mem hcc with h | h | h <;> cases h
        · simp only [hcc, except_ok_bind] at hcon
          cases hcon

/-- Witness for C7 at a concrete valid input (first resolved depth zero):
the initial-condition error is not raised. -/
theorem C7_initial_condition_witness :
    ¬ swe_delta_snow (fun _ _ => []) id
        (.frame ["date", "hs"] [0, 86400000000000] [some 0, some 1]) "m" "mm"
        false false false 3 = .error .valueInitialCond :=
  C7_initial_condition.2 (fun _ _ => []) id
    (.frame ["date", "hs"] [0, 86400000000000] [some 0, some 1]) "m" "mm"
    false false false 3 (1 / 1000) [0, 86400000000000] [some 0, some 1]
    (by with_unfolding_all rfl) (by with_unfolding_all rfl)

lemma writeChunk_length (out : List ℚ) (s t : ℕ) (vals : List ℚ) :
    (writeChunk out s t vals).length = out.length := by
  simp [writeChunk]

lemma deltasnow_on_nonzero_chunks_length (engine : List (Option ℚ) → ℚ → List ℚ)
    (H : List (Option ℚ)) (swe0 : List ℚ) (s t : List ℕ) (r : ℚ) :
    (deltasnow_on_nonzero_chunks engine H swe0 s t r).length = swe0.length := by
  unfold deltasnow_on_nonzero_chunks
  generalize s.zip t = pairs
  induction pairs generalizing swe0 with
  | nil => rfl
  | cons p ps ih =>
    rw [List.foldl_cons, ih, writeChunk_length]

lemma remask_length (m? : Option (List Bool)) (swe : List ℚ) :
    (remask m? swe).length = swe.length := by
  cases m? <;> simp [remask]

lemma firstCheck_ok_elim {H : List (Option ℚ)} (h : firstCheck H = .ok ()) :
    H ≠ [] ∧ hget H 0 = some 0 := by
  rcases H with - | ⟨v, t⟩
  · cases h
  · by_cases hv : v = some 0
    · exact ⟨List.cons_ne_nil v t, by simpa [hget] using hv⟩
    · rw [show firstCheck (v :: t) = .error .valueInitialCond from by
        unfold firstCheck; simp [hv]] at h
      cases h

/-- C8 counterexample: a disallowed unit surfaces as an `assert` failure
(`AssertionError`), not as the single claimed `ValueError` kind. -/
theorem C8_counterexample :
    swe_delta_snow (fun _ _ => []) id
        (.frame ["date", "hs"] [0] [some 0]) "km" "mm" false false false 3 =
      .error .assertHsUnit ∧
    PdsErr.isValueError .assertHsUnit = false := by
  exact ⟨by with_unfolding_all rfl, rfl⟩

/-- C8 amended: a `swe_delta_snow` call either returns a complete series
(one value per sorted input row) or fails; precondition violations fail
with a `ValueError`, except disallowed units, which abort via `assert`
(`AssertionError`); the only other failures are the degenerate
crash paths (`IndexError`/`UnboundLocalError`) on a series of at most one
sample or an irregularly-sampled series with no nonzero chunk. -/
theorem C8_error_surface :
    (∀ (engine : List (Option ℚ) → ℚ → List ℚ)
      (interp : List (Option ℚ) → List (Option ℚ)) (data : PdsData)
      (hsU sweU : String) (zp tz si : Bool) (mg : ℕ) (out : List (Option ℚ)),
      swe_delta_snow engine interp data hsU sweU zp tz si mg = .ok out →
      ∃ f d Hr, prepared data hsU sweU = .ok (f, d, Hr) ∧ out.length = Hr.length) ∧
    (∀ (engine : List (Option ℚ) → ℚ → List ℚ)
      (interp : List (Option ℚ) → List (Option ℚ)) (data : PdsData)
      (hsU sweU : String) (zp tz si : Bool) (mg : ℕ) (e : PdsErr),
      swe_delta_snow engine interp data hsU sweU zp tz si mg = .error e →
      e.isValueError = true ∨
        (e.isAssertionError = true ∧
          (UNIT_FACTOR hsU = none ∨ UNIT_FACTOR sweU = none)) ∨
        ((e = .unboundLocal ∨ e = .indexError) ∧
          ∀ f d Hr, prepared data hsU sweU = .ok (f, d, Hr) →
            ((gapResolved interp zp tz si mg d Hr).2.length ≤ 1 ∨
              (get_nonzero_chunk_idxs (gapResolved interp zp tz si mg d Hr).2).1 =
                []))) := by
  constructor
  · intro engine interp data hsU sweU zp tz si mg out hok
    rcases hp : prepared data hsU sweU with ep | ⟨f, d, Hr⟩
    · rw [swe_of_prepared_error engine interp data hsU sweU zp tz si mg ep hp] at hok
      cases hok
    · refine ⟨f, d, Hr, rfl, ?_⟩
      rw [swe_delta_snow_eq' engine interp data hsU sweU zp tz si mg f d Hr hp] at hok
      rw [except_bind_eq_ok] at hok
      obtain ⟨-, -, hok⟩ := hok
      rw [except_bind_eq_ok] at hok
      obtain ⟨-, -, hok⟩ := hok
      rw [except_bind_eq_ok] at hok
      obtain ⟨-, -, hok⟩ := hok
      rw [except_bind_eq_ok] at hok
      obtain ⟨-, -, hok⟩ := hok
      rw [except_bind_eq_ok] at hok
      obtain ⟨r, -, hok⟩ := hok
      have hout : out = (remask (gapResolved interp zp tz si mg d Hr).1
          (deltasnow_on_nonzero_chunks engine (gapResolved interp zp tz si mg d Hr).2
            (List.replicate (gapResolved interp zp tz si mg d Hr).2.length 0)
            (get_nonzero_chunk_idxs (gapResolved interp zp tz si mg d Hr).2).1
            (get_nonzero_chunk_idxs (gapResolved interp zp tz si mg d Hr).2).2 r)).map
          (Option.map (fun v => v * (1 / 1000) / f)) := by
        have := hok
        simp only [pure, Except.pure, Except.ok.injEq] at this
        exact this.symm
      rw [hout, List.length_map, remask_length, deltasnow_on_nonzero_chunks_length,
        List.length_replicate, gapResolved_length]
  · intro engine interp data hsU sweU zp tz si mg e herr
    rcases hp : prepared data hsU sweU with ep | ⟨f, d, Hr⟩
    · rw [swe_of_prepared_error engine interp data hsU sweU zp tz si mg ep hp] at herr
      have hee : ep = e := by cases herr; rfl
      rw [← hee]
      rcases prepared_error_cases hp with ⟨he, hu⟩ | ⟨he, hu⟩ | hv
      · rw [he]
        exact Or.inr (Or.inl ⟨rfl, Or.inl hu⟩)
      · rw [he]
        exact Or.inr (Or.inl ⟨rfl, Or.inr hu⟩)
      · exact Or.inl hv
    · rw [swe_delta_snow_eq' engine interp data hsU sweU zp tz si mg f d Hr hp] at herr
      have hdet : ∀ (f' : ℚ) (d' : List ℤ) (Hr' : List (Option ℚ)),
          (Except.ok (f, d, Hr) : Except PdsErr (ℚ × List ℤ × List (Option ℚ))) =
            .ok (f', d', Hr') →
          d' = d ∧ Hr' = Hr := by
        intro f' d' Hr' hp'
        have h2 : ((f, d, Hr) : ℚ × List ℤ × List (Option ℚ)) = (f', d', Hr') :=
          Except.ok.inj hp'
        simp only [Prod.mk.injEq] at h2
        exact ⟨h2.2.1.symm, h2.2.2.symm⟩
      rcases hnan : nanCheck zp si (gapResolved interp zp tz si mg d Hr).2 with en | u
      · simp only [hnan, except_error_bind] at herr
        have hee : en = e := by cases herr; rfl
        rw [← hee]
        exact Or.inl (nanCheck_error_isValue hnan)
      · simp only [hnan, except_ok_bind] at herr
        rcases hneg : nonnegCheck (gapResolved interp zp tz si mg d Hr).2 with en | u2
        · simp only [hneg, except_error_bind] at herr
          have hee : en = e := by cases herr; rfl
          rw [← hee]
          exact Or.inl (nonnegCheck_error_isValue hneg)
        · simp only [hneg, except_ok_bind, numericCheck_ok] at herr
          rcases hfc : firstCheck (gapResolved interp zp tz si mg d Hr).2 with ef | u3
          · simp only [hfc, except_error_bind] at herr
            have hee : ef = e := by cases herr; rfl
            rw [← hee]
            rcases firstCheck_cases hfc with ⟨hnil, he⟩ | ⟨-, he⟩
            · rw [he]
              refine Or.inr (Or.inr ⟨Or.inr rfl, ?_⟩)
              intro f' d' Hr' hp'
              obtain ⟨rfl, rfl⟩ := hdet f' d' Hr' hp'
              rw [hnil]
              exact Or.inl (by simp)
            · rw [he]
              exact Or.inl rfl
          · simp only [hfc, except_ok_bind] at herr
            obtain ⟨hne, h0⟩ := firstCheck_ok_elim hfc
            have hHlen : (gapResolved interp zp tz si mg d Hr).2.length = d.length := by
              rw [gapResolved_length, ← prepared_lengths data hsU sweU f d Hr hp]
            rcases hcc : continuityCheck d
                (get_nonzero_chunk_idxs (gapResolved interp zp tz si mg d Hr).2).1
                (get_nonzero_chunk_idxs (gapResolved interp zp tz si mg d Hr).2).2
              with ec | r
            · simp only [hcc, except_error_bind] at herr
              have hee : ec = e := by cases herr; rfl
              rw [← hee]
              unfold continuityCheck at hcc
              rcases hctd : continuous_timedeltas d with e1 | ⟨c, rr⟩
              · simp only [hctd, except_error_bind] at hcc
                have hee1 : e1 = ec := by cases hcc; rfl
                rw [← hee1]
                obtain ⟨he1, hdlen⟩ := ctd_error_eq hctd
                rw [he1]
                refine Or.inr (Or.inr ⟨Or.inl rfl, ?_⟩)
                intro f' d' Hr' hp'
                obtain ⟨rfl, rfl⟩ := hdet f' d' Hr' hp'
                exact Or.inl (by omega)
              · simp only [hctd, except_ok_bind] at hcc
                by_cases hc : c = true
                · simp only [hc, if_true] at hcc
                  cases hcc
                · simp only [hc, if_false, Bool.false_eq_true] at hcc
                  have hslices : ∀ p ∈ (get_nonzero_chunk_idxs
                      (gapResolved interp zp tz si mg d Hr).2).1.zip
                      (get_nonzero_chunk_idxs (gapResolved interp zp tz si mg d Hr).2).2,
                      tdeltas (pyslice d p.1 p.2) ≠ [] := by
                    intro p hpmem
                    obtain ⟨h2le, hle⟩ := chunk_two_le _ hne h0 p hpmem
                    rw [Ne, tdeltas_eq_nil_iff, pyslice_length]
                    omega
                  rcases hci : continuous_timedeltas_in_nonzero_chunks d
                      (get_nonzero_chunk_idxs (gapResolved interp zp tz si mg d Hr).2).1
                      (get_nonzero_chunk_idxs (gapResolved interp zp tz si mg d Hr).2).2
                    with e2 | ⟨c2, r2⟩
                  · simp only [hci, except_error_bind] at hcc
                    have hee2 : e2 = ec := by cases hcc; rfl
                    rw [← hee2]
                    obtain ⟨he2, hstarts⟩ := ctinc_error_cases _ _ _ _ hslices hci
                    rw [he2]
                    refine Or.inr (Or.inr ⟨Or.inr rfl, ?_⟩)
                    intro f' d' Hr' hp'
                    obtain ⟨rfl, rfl⟩ := hdet f' d' Hr' hp'
                    exact Or.inr hstarts
                  · simp only [hci, except_ok_bind] at hcc
                    by_cases hc2 : c2 = true
                    · simp only [hc2, if_true] at hcc
                      cases hcc
                    · simp only [hc2, if_false, Bool.false_eq_true] at hcc
                      have hee3 : PdsErr.valueIrregular = ec := by cases hcc; rfl
                      rw [← hee3]
                      exact Or.inl rfl
            · simp only [hcc, except_ok_bind] at herr
              cases herr

/-- Witness for C8 at a concrete successful call: the returned series has
one value per input row. -/
theorem C8_error_surface_witness :
    ∃ (f : ℚ) (d : List ℤ) (Hr : List (Option ℚ)),
      prepared (.frame ["date", "hs"] [0, 86400000000000] [some 0, some 1])
          "m" "mm" = .ok (f, d, Hr) ∧
        ([some 0, some 0] : List (Option ℚ)).length = Hr.length :=
  C8_error_surface.1 (fun _ _ => []) id
    (.frame ["date", "hs"] [0, 86400000000000] [some 0, some 1]) "m" "mm"
    false false false 3 [some 0, some 0] (by with_unfolding_all rfl)

/-- Invariant of the loop of `get_zeropadded_gap_idxs` after processing
indices `[0, k)`: the two index lists pair up, every recorded range lies
within the processed prefix and covers only missing values, and while a
gap is open the range from its start to the processed end is all
missing. -/
def ZpInv (H : List (Option ℚ)) (k : ℕ) (st : ZpState) : Prop :=
  st.startIdxs.length = st.stopIdxs.length ∧
  (∀ p ∈ st.startIdxs.zip st.stopIdxs, p.2 ≤ k ∧
    ∀ j, p.1 ≤ j → j < p.2 → hget H j = none) ∧
  (st.gap = true → st.start < k ∧ ∀ j, st.start ≤ j → j < k → hget H j = none)

/-- Mid-loop invariant, after the gap-opening `if`s of iteration `k` and
before the recording one. -/
def ZpMid (H : List (Option ℚ)) (k : ℕ) (st : ZpState) : Prop :=
  st.startIdxs.length = st.stopIdxs.length ∧
  (∀ p ∈ st.startIdxs.zip st.stopIdxs, p.2 ≤ k ∧
    ∀ j, p.1 ≤ j → j < p.2 → hget H j = none) ∧
  (st.gap = true → st.start ≤ k ∧ ∀ j, st.start ≤ j → j < k → hget H j = none)

lemma zpStepA_mid {H : List (Option ℚ)} {k : ℕ} {st : ZpState}
    (hinv : ZpInv H k st) : ZpMid H k (zpStepA H k st) := by
  obtain ⟨hA, hB, hC⟩ := hinv
  unfold zpStepA
  split
  · refine ⟨hA, hB, fun _ => ⟨le_refl k, fun j hj1 hj2 => ?_⟩⟩
    dsimp only at hj1
    omega
  · exact ⟨hA, hB, fun hg => ⟨le_of_lt (hC hg).1, (hC hg).2⟩⟩

lemma zpStepB_mid {H : List (Option ℚ)} {k : ℕ} {st : ZpState}
    (hinv : ZpMid H k st) : ZpMid H k (zpStepB H k st) := by
  obtain ⟨hA, hB, hC⟩ := hinv
  unfold zpStepB
  split
  · refine ⟨hA, hB, fun _ => ⟨le_refl k, fun j hj1 hj2 => ?_⟩⟩
    dsimp only at hj1
    omega
  · exact ⟨hA, hB, hC⟩

lemma zpStepC_mid {H : List (Option ℚ)} {k : ℕ} {st : ZpState}
    (hinv : ZpMid H k st) :
    (zpStepC H k st).gap = st.gap ∧ (zpStepC H k st).start = st.start ∧
    (zpStepC H k st).startIdxs.length = (zpStepC H k st).stopIdxs.length ∧
    (∀ p ∈ (zpStepC H k st).startIdxs.zip (zpStepC H k st).stopIdxs,
      p.2 ≤ k + 1 ∧ ∀ j, p.1 ≤ j → j < p.2 → hget H j = none) := by
  obtain ⟨hA, hB, hC⟩ := hinv
  unfold zpStepC
  split
  next hcond =>
    obtain ⟨-, hnan, -, hgap⟩ := hcond
    refine ⟨rfl, rfl, by simp [hA], ?_⟩
    intro p hp
    simp only at hp
    rw [List.zip_append hA] at hp
    rcases List.mem_append.mp hp with hp | hp
    · obtain ⟨h1, h2⟩ := hB p hp
      exact ⟨by omega, h2⟩
    · have hpeq : p = (st.start, k + 1) := by simpa using hp
      subst hpeq
      obtain ⟨hsk, hrun⟩ := hC hgap
      refine ⟨le_refl _, ?_⟩
      intro j hj1 hj2
      rcases Nat.lt_or_ge j k with hj | hj
      · exact hrun j hj1 hj
      · have : j = k := by omega
        rw [this]
        exact hnan
  · exact ⟨rfl, rfl, hA, fun p hp => ⟨by have := (hB p hp).1; omega, (hB p hp).2⟩⟩

lemma zpStep_inv (H : List (Option ℚ)) (k : ℕ) (st : ZpState)
    (hinv : ZpInv H k st) : ZpInv H (k + 1) (zpStep H st k) := by
  have hmid : ZpMid H k (zpStepB H k (zpStepA H k st)) :=
    zpStepB_mid (zpStepA_mid hinv)
  obtain ⟨hg, hs, hA, hB⟩ := zpStepC_mid hmid
  unfold zpStep zpStepD
  split
  next hpresent =>
    exact ⟨hA, hB, fun hcon => by cases hcon⟩
  next hpresent =>
    have hnan : hget H k = none := by
      by_contra hcon
      exact hpresent hcon
    refine ⟨hA, hB, fun hgap => ?_⟩
    rw [hg] at hgap
    obtain ⟨hsk, hrun⟩ := hmid.2.2 hgap
    rw [hs]
    refine ⟨by omega, ?_⟩
    intro j hj1 hj2
    rcases Nat.lt_or_ge j k with hj | hj
    · exact hrun j hj1 hj
    · have : j = k := by omega
      rw [this]
      exact hnan

/-- The loop invariant holds at the end of the loop of
`get_zeropadded_gap_idxs`. -/
lemma zpLoop_inv (H : List (Option ℚ)) : ZpInv H H.length (zpLoop H) := by
  suffices h : ∀ k, ZpInv H k ((List.range k).foldl (zpStep H) ⟨[], [], false, H.length⟩) by
    exact h H.length
  intro k
  induction k with
  | zero =>
    exact ⟨rfl, by simp, fun hcon => by cases hcon⟩
  | succ k ih =>
    rw [List.range_succ, List.foldl_append, List.foldl_cons, List.foldl_nil]
    exact zpStep_inv H k _ ih

/-- Every range recorded by `get_zeropadded_gap_idxs` (loop plus trailing
fix-up) covers only missing values. -/
lemma zpFinish_pairs (H : List (Option ℚ)) :
    ∀ p ∈ (zpFinish H.length (zpLoop H)).1.zip (zpFinish H.length (zpLoop H)).2,
      ∀ j, p.1 ≤ j → j < p.2 → hget H j = none := by
  obtain ⟨hA, hB, hC⟩ := zpLoop_inv H
  intro p hp
  unfold zpFinish at hp
  by_cases hgap : (zpLoop H).gap = true
  · rw [if_pos hgap] at hp
    obtain ⟨hsn, hrun⟩ := hC hgap
    have hnew : p ∈ ((zpLoop H).startIdxs.zip (zpLoop H).stopIdxs) ++
        [((zpLoop H).start, H.length)] → ∀ j, p.1 ≤ j → j < p.2 → hget H j = none := by
      intro hp' j hj1 hj2
      rcases List.mem_append.mp hp' with hp' | hp'
      · exact (hB p hp').2 j hj1 hj2
      · have hpeq : p = ((zpLoop H).start, H.length) := by simpa using hp'
        subst hpeq
        exact hrun j hj1 hj2
    by_cases hc1 : 0 < (zpLoop H).startIdxs.length ∧
        ¬ (zpLoop H).start = (zpLoop H).startIdxs.getLastD 0
    · rw [if_pos hc1] at hp
      dsimp only at hp
      rw [List.zip_append hA] at hp
      simp only [List.zip_cons_cons, List.zip_nil_right] at hp
      exact hnew hp
    · rw [if_neg hc1] at hp
      by_cases hc2 : (zpLoop H).start < H.length
      · rw [if_pos hc2] at hp
        dsimp only at hp
        rw [List.zip_append hA] at hp
        simp only [List.zip_cons_cons, List.zip_nil_right] at hp
        exact hnew hp
      · rw [if_neg hc2] at hp
        exact fun j hj1 hj2 => (hB p hp).2 j hj1 hj2
  · rw [if_neg hgap] at hp
    exact fun j hj1 hj2 => (hB p hp).2 j hj1 hj2

/-- Entry `i` of a `markRanges` mask, for `i` in range. -/
lemma markRanges_getD {n : ℕ} {pairs : List (ℕ × ℕ)} {i : ℕ} (h : i < n) :
    (markRanges n pairs).getD i false =
      pairs.any (fun p => decide (p.1 ≤ i ∧ i < p.2)) := by
  unfold markRanges
  rw [List.getD_eq_getElem?_getD, List.getElem?_map, List.getElem?_range h]
  rfl

lemma markRanges_getD_ge {n : ℕ} {pairs : List (ℕ × ℕ)} {i : ℕ} (h : n ≤ i) :
    (markRanges n pairs).getD i false = false := by
  unfold markRanges
  rw [List.getD_eq_getElem?_getD, List.getElem?_eq_none (by simpa using h)]
  rfl

/-- A marked position of the strict zero-padded gap mask is a missing
value of the input. -/
lemma zeropadded_marks_missing (H : List (Option ℚ)) (i : ℕ)
    (h : (get_zeropadded_gap_idxs H).getD i false = true) : hget H i = none := by
  unfold get_zeropadded_gap_idxs at h
  rcases Nat.lt_or_ge i H.length with hi | hi
  · rw [markRanges_getD hi] at h
    obtain ⟨p, hp, hcond⟩ := List.any_eq_true.mp h
    rw [decide_eq_true_eq] at hcond
    exact zpFinish_pairs H p hp i hcond.1 hcond.2
  · rw [markRanges_getD_ge hi] at h
    cases h

lemma remask_getD (m : List Bool) (swe : List ℚ) (i : ℕ) (hi : i < swe.length) :
    (remask (some m) swe).getD i none =
      if m.getD i false = true then none else some (swe.getD i 0) := by
  simp only [remask]
  rw [List.getD_eq_getElem?_getD, List.getElem?_map, List.getElem?_range hi]
  rfl

lemma zeroResolve_getD (m : List Bool) (H : List (Option ℚ)) (i : ℕ)
    (hi : i < m.length) (hi2 : i < H.length) :
    hget (zeroResolve m H) i =
      if m.getD i false = true then some 0 else hget H i := by
  unfold zeroResolve hget
  rw [List.getD_eq_getElem?_getD, List.getElem?_zipWith',
    List.getElem?_eq_getElem hi, List.getElem?_eq_getElem hi2,
    List.getD_eq_getElem?_getD, List.getElem?_eq_getElem hi]
  by_cases hm : m[i] = true <;> simp [hm, List.getElem?_eq_getElem hi2]

/-- C10: both gap masks mark only missing positions, so the
gap-resolution overwrite (`np.where(mask, 0., Hobs)`) and the final
re-masking (`np.where(mask, nan, swe)`) leave every position whose
original depth was present unchanged. -/
theorem C10_gap_mask_sound :
    (∀ (H : List (Option ℚ)) (i : ℕ),
      (get_zeropadded_gap_idxs H).getD i false = true → hget H i = none) ∧
    (∀ (H : List (Option ℚ)) (i : ℕ),
      (get_trailingzero_gap_idxs H).getD i false = true → hget H i = none) ∧
    (∀ (H : List (Option ℚ)) (m : List Bool) (i : ℕ),
      (m = get_zeropadded_gap_idxs H ∨ m = get_trailingzero_gap_idxs H) →
      ¬ hget H i = none →
      hget (zeroResolve m H) i = hget H i ∧
      (∀ swe : List ℚ, i < swe.length →
        (remask (some m) swe).getD i none = some (swe.getD i 0))) := by
  have htrail : ∀ (H : List (Option ℚ)) (i : ℕ),
      (get_trailingzero_gap_idxs H).getD i false = true → hget H i = none := by
    intro H i h
    rcases Nat.lt_or_ge i H.length with hi | hi
    · rw [trailing_getD hi, decide_eq_true_eq] at h
      exact h.1
    · rw [trailing_getD_ge hi] at h
      cases h
  refine ⟨zeropadded_marks_missing, htrail, ?_⟩
  intro H m i hm hpres
  have hi2 : i < H.length := by
    by_contra hcon
    exact hpres (hget_ge (by omega))
  have hmlen : m.length = H.length := by
    rcases hm with rfl | rfl
    · exact get_zeropadded_gap_idxs_length H
    · exact get_trailingzero_gap_idxs_length H
  have hmask : m.getD i false = false := by
    by_contra hcon
    have htrue : m.getD i false = true := by
      rcases hmm : m.getD i false
      · exact absurd hmm hcon
      · rfl
    rcases hm with rfl | rfl
    · exact hpres (zeropadded_marks_missing H i htrue)
    · exact hpres (htrail H i htrue)
  constructor
  · rw [zeroResolve_getD m H i (by omega) hi2, hmask]
    simp
  · intro swe hiswe
    rw [remask_getD m swe i hiswe, hmask]
    simp

/-- Witness for C10 at a concrete input: position 1 of `[0, NaN, 0]` is
marked by the strict zero-padded mask, and it is indeed missing. -/
theorem C10_gap_mask_sound_witness :
    hget [some 0, none, some 0] 1 = none :=
  C10_gap_mask_sound.1 [some 0, none, some 0] 1 (by decide)

/-! ## Characterisation of `get_small_gap_idxs` -/

/-- Out-of-range guarded indexing yields the junk value. -/
lemma hget_of_ge (H : List (Option ℚ)) {i : ℕ} (h : H.length ≤ i) : hget H i = none := by
  unfold hget
  exact List.getD_eq_default _ _ h

/-- A qualifying small gap: the pair `(s, t)` delimits an interior NaN
run `Hobs[s:t]` whose neighbours `Hobs[s-1]` and `Hobs[t]` are both
present, whose length `t - s` is at most `max_gap_length`, and whose
surrounding timestamps `dates[s-1:t+1]` are evenly spaced. -/
def sgQual (H : List (Option ℚ)) (dates : List ℤ) (maxGap : ℕ) (p : ℕ × ℕ) : Prop :=
  1 ≤ p.1 ∧ p.1 < p.2 ∧
  ¬ hget H (p.1 - 1) = none ∧ ¬ hget H p.2 = none ∧
  (∀ j, p.1 ≤ j → j < p.2 → hget H j = none) ∧
  p.2 - p.1 ≤ maxGap ∧
  continuousB (pyslice dates (p.1 - 1) (p.2 + 1)) = true

/-- Invariant of the loop of `get_small_gap_idxs` after processing the
indices below `k`: the recorded pairs are exactly the qualifying gaps
closed before `k`, and the gap-tracking registers (`active_gap`,
`valid_gap`, `gapl`, `start`) describe the NaN run still open at `k`,
if any. -/
def SgInv (H : List (Option ℚ)) (dates : List ℤ) (maxGap k : ℕ) (st : SgState) : Prop :=
  st.startIdxs.length = st.stopIdxs.length ∧
  (∀ p, p ∈ st.startIdxs.zip st.stopIdxs ↔ sgQual H dates maxGap p ∧ p.2 < k) ∧
  (st.activeGap = true → 1 ≤ st.start ∧ st.start < k ∧
    ¬ hget H (st.start - 1) = none ∧
    (∀ j, st.start ≤ j → j < k → hget H j = none)) ∧
  (∀ s, 1 ≤ s → s < k → ¬ hget H (s - 1) = none →
    (∀ j, s ≤ j → j < k → hget H j = none) →
    st.activeGap = true ∧ st.start = s) ∧
  (st.activeGap = true → st.gapl = k - 1 - st.start) ∧
  (st.activeGap = false → st.gapl = 0) ∧
  (st.validGap = true ↔ st.activeGap = true ∧ k - 1 - st.start ≤ maxGap)

/-- Field computations for the counter-bump statement. -/
lemma sgStepA_proj (st : SgState) :
    (sgStepA st).startIdxs = st.startIdxs ∧ (sgStepA st).stopIdxs = st.stopIdxs ∧
    (sgStepA st).activeGap = st.activeGap ∧ (sgStepA st).validGap = st.validGap ∧
    (sgStepA st).start = st.start ∧
    (sgStepA st).gapl = (if st.activeGap = true then st.gapl + 1 else st.gapl) := by
  unfold sgStepA
  by_cases h : st.activeGap = true
  · rw [if_pos h, if_pos h]
    exact ⟨rfl, rfl, rfl, rfl, rfl, rfl⟩
  · rw [if_neg h, if_neg h]
    exact ⟨rfl, rfl, rfl, rfl, rfl, rfl⟩

/-- Field computations for the gap-invalidation statement. -/
lemma sgStepB_proj (m : ℕ) (st : SgState) :
    (sgStepB m st).startIdxs = st.startIdxs ∧ (sgStepB m st).stopIdxs = st.stopIdxs ∧
    (sgStepB m st).activeGap = st.activeGap ∧ (sgStepB m st).start = st.start ∧
    (sgStepB m st).gapl = st.gapl ∧
    (sgStepB m st).validGap = (if m < st.gapl then false else st.validGap) := by
  unfold sgStepB
  by_cases h : m < st.gapl
  · rw [if_pos h, if_pos h]
    exact ⟨rfl, rfl, rfl, rfl, rfl, rfl⟩
  · rw [if_neg h, if_neg h]
    exact ⟨rfl, rfl, rfl, rfl, rfl, rfl⟩

/-- State after the first two statements of a loop iteration of
`get_small_gap_idxs`: the recorded pairs, flags and `start` are
unchanged, the counter holds the current run length including index `k`,
and `valid_gap` now says the run including `k` fits the bound. -/
lemma sgMid (H : List (Option ℚ)) (dates : List ℤ) (maxGap k : ℕ) (st : SgState)
    (hinv : SgInv H dates maxGap k st) :
    (sgStepB maxGap (sgStepA st)).startIdxs = st.startIdxs ∧
    (sgStepB maxGap (sgStepA st)).stopIdxs = st.stopIdxs ∧
    (sgStepB maxGap (sgStepA st)).activeGap = st.activeGap ∧
    (sgStepB maxGap (sgStepA st)).start = st.start ∧
    (sgStepB maxGap (sgStepA st)).gapl =
      (if st.activeGap = true then k - st.start else 0) ∧
    ((sgStepB maxGap (sgStepA st)).validGap = true ↔
      st.activeGap = true ∧ k - st.start ≤ maxGap) := by
  obtain ⟨-, -, hC, -, hE, hE0, hF⟩ := hinv
  obtain ⟨a1, a2, a3, a4, a5, a6⟩ := sgStepA_proj st
  obtain ⟨b1, b2, b3, b4, b5, b6⟩ := sgStepB_proj maxGap (sgStepA st)
  refine ⟨by rw [b1, a1], by rw [b2, a2], by rw [b3, a3], by rw [b4, a5], ?_, ?_⟩
  · rw [b5, a6]
    by_cases hact : st.activeGap = true
    · rw [if_pos hact, if_pos hact, hE hact]
      have hlt := (hC hact).2.1
      omega
    · have hactf : st.activeGap = false := by
        simp only [Bool.not_eq_true] at hact
        exact hact
      rw [if_neg hact, if_neg hact]
      exact hE0 hactf
  · rw [b6, a4, a6]
    by_cases hact : st.activeGap = true
    · rw [if_pos hact, hE hact]
      have hlt := (hC hact).2.1
      by_cases hbig : maxGap < k - 1 - st.start + 1
      · rw [if_pos hbig]
        constructor
        · intro hcon
          exact (Bool.false_ne_true hcon).elim
        · intro h
          exact absurd h.2 (by omega)
      · rw [if_neg hbig, hF]
        constructor
        · exact fun h => ⟨h.1, by omega⟩
        · exact fun h => ⟨h.1, by omega⟩
    · have hactf : st.activeGap = false := by
        simp only [Bool.not_eq_true] at hact
        exact hact
      rw [if_neg hact, hE0 hactf, if_neg (by omega : ¬ maxGap < 0), hF, hactf]
      simp

/-- The loop invariant of `get_small_gap_idxs` is preserved by one
iteration. -/
lemma sgStep_inv (H : List (Option ℚ)) (dates : List ℤ) (maxGap k : ℕ) (st : SgState)
    (hinv : SgInv H dates maxGap k st) :
    SgInv H dates maxGap (k + 1) (sgStep H dates maxGap st k) := by
  obtain ⟨m1, m2, m3, m4, m5, m6⟩ := sgMid H dates maxGap k st hinv
  obtain ⟨hA, hP, hC, hD, hE, hE0, hF⟩ := hinv
  unfold sgStep
  set st2 : SgState := sgStepB maxGap (sgStepA st) with hst2
  by_cases hnan : hget H k = none
  · have hD4 : ∀ s' : SgState, sgStepD H dates k s' = s' := by
      intro s'
      unfold sgStepD
      rw [if_neg (fun hcon => hcon.2 hnan)]
    rw [hD4]
    have hPsame : ∀ p : ℕ × ℕ, (sgQual H dates maxGap p ∧ p.2 < k) ↔
        (sgQual H dates maxGap p ∧ p.2 < k + 1) := by
      intro p
      constructor
      · exact fun h => ⟨h.1, by omega⟩
      · intro h
        refine ⟨h.1, ?_⟩
        have hl := h.2
        have hne : ¬ p.2 = k := fun he => h.1.2.2.2.1 (by rw [he]; exact hnan)
        omega
    by_cases hc : 0 < k ∧ ¬ hget H (k - 1) = none ∧ hget H k = none
    · -- a gap opens at index k
      unfold sgStepC
      rw [if_pos hc]
      have hact : st.activeGap = false := by
        cases h : st.activeGap with
        | false => rfl
        | true =>
          obtain ⟨h1, h2, h3, h4⟩ := hC h
          have hk0 : 0 < k := hc.1
          exact absurd (h4 (k - 1) (by omega) (by omega)) hc.2.1
      refine ⟨?_, ?_, ?_, ?_, ?_, ?_, ?_⟩
      · show st2.startIdxs.length = st2.stopIdxs.length
        rw [m1, m2]
        exact hA
      · intro p
        show p ∈ st2.startIdxs.zip st2.stopIdxs ↔ sgQual H dates maxGap p ∧ p.2 < k + 1
        rw [m1, m2, hP p]
        exact hPsame p
      · intro _
        show 1 ≤ k ∧ k < k + 1 ∧ ¬ hget H (k - 1) = none ∧
          ∀ j, k ≤ j → j < k + 1 → hget H j = none
        refine ⟨hc.1, by omega, hc.2.1, ?_⟩
        intro j hj1 hj2
        have hj : j = k := by omega
        rw [hj]
        exact hnan
      · intro s hs1 hs2 hs3 hs4
        refine ⟨rfl, ?_⟩
        show k = s
        rcases Nat.lt_or_ge s k with hsk | hsk
        · have hda := (hD s hs1 hsk hs3 (fun j hj1 hj2 => hs4 j hj1 (by omega))).1
          rw [hact] at hda
          exact (Bool.false_ne_true hda).elim
        · omega
      · intro _
        show st2.gapl = k + 1 - 1 - k
        rw [m5, hact]
        simp
      · intro hcon
        exact Bool.noConfusion hcon
      · constructor
        · intro _
          refine ⟨rfl, ?_⟩
          show k + 1 - 1 - k ≤ maxGap
          omega
        · intro _
          rfl
    · -- no new gap opens at k; the data at k is still missing
      unfold sgStepC
      rw [if_neg hc]
      have hkx : k = 0 ∨ hget H (k - 1) = none := by
        by_contra hcon
        push_neg at hcon
        exact hc ⟨Nat.pos_of_ne_zero hcon.1, hcon.2, hnan⟩
      refine ⟨?_, ?_, ?_, ?_, ?_, ?_, ?_⟩
      · show st2.startIdxs.length = st2.stopIdxs.length
        rw [m1, m2]
        exact hA
      · intro p
        show p ∈ st2.startIdxs.zip st2.stopIdxs ↔ sgQual H dates maxGap p ∧ p.2 < k + 1
        rw [m1, m2, hP p]
        exact hPsame p
      · intro hact2
        rw [m3] at hact2
        obtain ⟨h1, h2, h3, h4⟩ := hC hact2
        show 1 ≤ st2.start ∧ st2.start < k + 1 ∧ ¬ hget H (st2.start - 1) = none ∧
          ∀ j, st2.start ≤ j → j < k + 1 → hget H j = none
        rw [m4]
        refine ⟨h1, by omega, h3, ?_⟩
        intro j hj1 hj2
        rcases Nat.lt_or_ge j k with hj | hj
        · exact h4 j hj1 hj
        · have hjk : j = k := by omega
          rw [hjk]
          exact hnan
      · intro s hs1 hs2 hs3 hs4
        show st2.activeGap = true ∧ st2.start = s
        rw [m3, m4]
        rcases Nat.lt_or_ge s k with hsk | hsk
        · exact hD s hs1 hsk hs3 (fun j hj1 hj2 => hs4 j hj1 (by omega))
        · have hsk2 : s = k := by omega
          rcases hkx with hk0 | hknone
          · exact absurd hs1 (by omega)
          · rw [hsk2] at hs3
            exact absurd hknone hs3
      · intro hact2
        rw [m3] at hact2
        show st2.gapl = k + 1 - 1 - st2.start
        rw [m5, m4, if_pos hact2]
        omega
      · intro hact2
        rw [m3] at hact2
        show st2.gapl = 0
        rw [m5, hact2]
        simp
      · show st2.validGap = true ↔ st2.activeGap = true ∧ k + 1 - 1 - st2.start ≤ maxGap
        rw [m6, m3, m4]
        constructor
        · exact fun h => ⟨h.1, by omega⟩
        · exact fun h => ⟨h.1, by omega⟩
  · have hC3 : sgStepC H k st2 = st2 := by
      unfold sgStepC
      rw [if_neg (fun hcon => hnan hcon.2.2)]
    rw [hC3]
    by_cases hprev : pygetPrev H k = none
    · unfold sgStepD
      rw [if_pos ⟨hprev, hnan⟩]
      by_cases hrec : st2.validGap = true ∧
          continuousB (pyslice dates (st2.start - 1) (k + 1)) = true
      · -- a qualifying gap is recorded and the state resets
        rw [if_pos hrec]
        have hact : st.activeGap = true := (m6.mp hrec.1).1
        have hlen : k - st.start ≤ maxGap := (m6.mp hrec.1).2
        obtain ⟨h1, h2, h3, h4⟩ := hC hact
        have hctd : continuousB (pyslice dates (st.start - 1) (k + 1)) = true := by
          rw [← m4]
          exact hrec.2
        have hqual : sgQual H dates maxGap (st.start, k) :=
          ⟨h1, h2, h3, hnan, h4, hlen, hctd⟩
        have hsing : [st2.start].zip [k] = [(st.start, k)] := by
          rw [m4]
          rfl
        refine ⟨?_, ?_, ?_, ?_, ?_, ?_, ?_⟩
        · show (st2.startIdxs ++ [st2.start]).length = (st2.stopIdxs ++ [k]).length
          rw [List.length_append, List.length_append, m1, m2, hA]
          rfl
        · intro p
          show p ∈ (st2.startIdxs ++ [st2.start]).zip (st2.stopIdxs ++ [k]) ↔
            sgQual H dates maxGap p ∧ p.2 < k + 1
          rw [List.zip_append (by rw [m1, m2]; exact hA), hsing, List.mem_append,
            List.mem_singleton, m1, m2, hP p]
          constructor
          · intro hp
            rcases hp with hp | hpe
            · exact ⟨hp.1, by have := hp.2; omega⟩
            · rw [hpe]
              exact ⟨hqual, Nat.lt_succ_self k⟩
          · intro hp
            obtain ⟨hq, hl⟩ := hp
            rcases Nat.lt_or_ge p.2 k with h2k | h2k
            · exact Or.inl ⟨hq, h2k⟩
            · have hp2 : p.2 = k := by omega
              have hq21 : p.1 < p.2 := hq.2.1
              have hds := hD p.1 hq.1 (by omega) hq.2.2.1
                (fun j hj1 hj2 => hq.2.2.2.2.1 j hj1 (by omega))
              refine Or.inr ?_
              rw [Prod.ext_iff]
              exact ⟨hds.2.symm, hp2⟩
        · intro hcon
          exact (Bool.false_ne_true hcon).elim
        · intro s hs1 hs2 hs3 hs4
          exact absurd (hs4 k (by omega) (by omega)) hnan
        · intro hcon
          exact (Bool.false_ne_true hcon).elim
        · intro _
          rfl
        · exact ⟨fun h => (Bool.false_ne_true h).elim,
            fun h => (Bool.false_ne_true h.1).elim⟩
      · -- run ends without qualifying; the state resets
        rw [if_neg hrec]
        refine ⟨?_, ?_, ?_, ?_, ?_, ?_, ?_⟩
        · show st2.startIdxs.length = st2.stopIdxs.length
          rw [m1, m2]
          exact hA
        · intro p
          show p ∈ st2.startIdxs.zip st2.stopIdxs ↔ sgQual H dates maxGap p ∧ p.2 < k + 1
          rw [m1, m2, hP p]
          constructor
          · exact fun h => ⟨h.1, by have := h.2; omega⟩
          · intro hp
            obtain ⟨hq, hl⟩ := hp
            rcases Nat.lt_or_ge p.2 k with h2k | h2k
            · exact ⟨hq, h2k⟩
            · have hp2 : p.2 = k := by omega
              have hq21 : p.1 < p.2 := hq.2.1
              have hds := hD p.1 hq.1 (by omega) hq.2.2.1
                (fun j hj1 hj2 => hq.2.2.2.2.1 j hj1 (by omega))
              have hlenq : p.2 - p.1 ≤ maxGap := hq.2.2.2.2.2.1
              have hv : st2.validGap = true := m6.mpr ⟨hds.1, by rw [hds.2]; omega⟩
              have hct : continuousB (pyslice dates (st2.start - 1) (k + 1)) = true := by
                rw [m4, hds.2]
                have hc7 := hq.2.2.2.2.2.2
                rw [hp2] at hc7
                exact hc7
              exact absurd ⟨hv, hct⟩ hrec
        · intro hcon
          exact (Bool.false_ne_true hcon).elim
        · intro s hs1 hs2 hs3 hs4
          exact absurd (hs4 k (by omega) (by omega)) hnan
        · intro hcon
          exact (Bool.false_ne_true hcon).elim
        · intro _
          rfl
        · exact ⟨fun h => (Bool.false_ne_true h).elim,
            fun h => (Bool.false_ne_true h.1).elim⟩
    · -- data present at k with no run just ended: the state is idle
      have hD4 : sgStepD H dates k st2 = st2 := by
        unfold sgStepD
        rw [if_neg (fun hcon => hprev hcon.1)]
      rw [hD4]
      have hact : st.activeGap = false := by
        cases h : st.activeGap with
        | false => rfl
        | true =>
          obtain ⟨h1, h2, h3, h4⟩ := hC h
          refine absurd ?_ hprev
          unfold pygetPrev
          rw [if_neg (by omega : ¬ k = 0)]
          exact h4 (k - 1) (by omega) (by omega)
      refine ⟨?_, ?_, ?_, ?_, ?_, ?_, ?_⟩
      · show st2.startIdxs.length = st2.stopIdxs.length
        rw [m1, m2]
        exact hA
      · intro p
        show p ∈ st2.startIdxs.zip st2.stopIdxs ↔ sgQual H dates maxGap p ∧ p.2 < k + 1
        rw [m1, m2, hP p]
        constructor
        · exact fun h => ⟨h.1, by have := h.2; omega⟩
        · intro hp
          obtain ⟨hq, hl⟩ := hp
          rcases Nat.lt_or_ge p.2 k with h2k | h2k
          · exact ⟨hq, h2k⟩
          · have hp2 : p.2 = k := by omega
            have hq1 : 1 ≤ p.1 := hq.1
            have hq21 : p.1 < p.2 := hq.2.1
            refine absurd ?_ hprev
            unfold pygetPrev
            rw [if_neg (by omega : ¬ k = 0)]
            exact hq.2.2.2.2.1 (k - 1) (by omega) (by omega)
      · intro hact2
        rw [m3, hact] at hact2
        exact (Bool.false_ne_true hact2).elim
      · intro s hs1 hs2 hs3 hs4
        exact absurd (hs4 k (by omega) (by omega)) hnan
      · intro hact2
        rw [m3, hact] at hact2
        exact (Bool.false_ne_true hact2).elim
      · intro _
        show st2.gapl = 0
        rw [m5, hact]
        simp
      · show st2.validGap = true ↔ st2.activeGap = true ∧ k + 1 - 1 - st2.start ≤ maxGap
        rw [m6, m3, hact]
        simp

/-- The loop invariant holds at the end of the loop of
`get_small_gap_idxs`. -/
lemma sgLoop_inv (H : List (Option ℚ)) (dates : List ℤ) (maxGap : ℕ) :
    SgInv H dates maxGap H.length (sgLoop H dates maxGap) := by
  suffices h : ∀ k, SgInv H dates maxGap k
      ((List.range k).foldl (sgStep H dates maxGap) ⟨[], [], 0, false, false, H.length⟩) from
    h H.length
  intro k
  induction k with
  | zero =>
    refine ⟨rfl, ?_, ?_, ?_, ?_, ?_, ?_⟩
    · intro p
      constructor
      · intro hp
        exact absurd hp (List.not_mem_nil p)
      · intro hp
        exact absurd hp.2 (Nat.not_lt_zero p.2)
    · intro h
      exact (Bool.false_ne_true h).elim
    · intro s hs1 hs2 hs3 hs4
      exact absurd hs2 (Nat.not_lt_zero s)
    · intro h
      exact (Bool.false_ne_true h).elim
    · intro _
      rfl
    · exact ⟨fun h => (Bool.false_ne_true h).elim,
        fun h => (Bool.false_ne_true h.1).elim⟩
  | succ k ih =>
    rw [List.range_succ, List.foldl_append, List.foldl_cons, List.foldl_nil]
    exact sgStep_inv H dates maxGap k _ ih

/-- The pairs recorded by the loop of `get_small_gap_idxs` are exactly
the qualifying small gaps. -/
lemma sg_pairs_iff (H : List (Option ℚ)) (dates : List ℤ) (maxGap : ℕ) (p : ℕ × ℕ) :
    p ∈ (sgLoop H dates maxGap).startIdxs.zip (sgLoop H dates maxGap).stopIdxs ↔
      sgQual H dates maxGap p := by
  obtain ⟨-, hP, -, -, -, -, -⟩ := sgLoop_inv H dates maxGap
  rw [hP p]
  constructor
  · exact fun h => h.1
  · intro hq
    refine ⟨hq, ?_⟩
    by_contra hge
    exact hq.2.2.2.1 (hget_of_ge H (by omega))

lemma get_small_gap_idxs_eq (H : List (Option ℚ)) (dates : List ℤ) (maxGap : ℕ) :
    get_small_gap_idxs H dates maxGap =
      markRanges H.length
        ((sgLoop H dates maxGap).startIdxs.zip (sgLoop H dates maxGap).stopIdxs) := rfl

/-- C6: `get_small_gap_idxs` marks position `i` exactly when `i` lies in
a maximal missing-value run that is strictly interior (present data at
`s - 1` and `e + 1`, so a run touching either series boundary is never
marked), of length at most `max_gap_length`, and whose timestamps from
one sample before the run through one sample after it are evenly spaced;
in particular `[1,1,1,nan,nan,nan,1,1,1]` on a regular daily index marks
the three interior positions for `max_gap_length` 3 or 4, marks nothing
for `max_gap_length` 2, and marks nothing when a timestamp touching the
gap's boundary samples is irregular. -/
theorem C6_small_gap_mask :
    (∀ (H : List (Option ℚ)) (dates : List ℤ) (maxGap i : ℕ),
      (get_small_gap_idxs H dates maxGap).getD i false = true ↔
        ∃ s e : ℕ, s ≤ i ∧ i ≤ e ∧ 1 ≤ s ∧ e + 1 < H.length ∧
          (∀ j, s ≤ j → j ≤ e → hget H j = none) ∧
          ¬ hget H (s - 1) = none ∧ ¬ hget H (e + 1) = none ∧
          e + 1 - s ≤ maxGap ∧
          continuousB (pyslice dates (s - 1) (e + 2)) = true) ∧
    (∀ m : ℕ, m = 3 ∨ m = 4 →
      get_small_gap_idxs
          [some 1, some 1, some 1, none, none, none, some 1, some 1, some 1]
          [0, 86400000000000, 172800000000000, 259200000000000, 345600000000000,
           432000000000000, 518400000000000, 604800000000000, 691200000000000] m =
        [false, false, false, true, true, true, false, false, false]) ∧
    get_small_gap_idxs
        [some 1, some 1, some 1, none, none, none, some 1, some 1, some 1]
        [0, 86400000000000, 172800000000000, 259200000000000, 345600000000000,
         432000000000000, 518400000000000, 604800000000000, 691200000000000] 2 =
      List.replicate 9 false ∧
    get_small_gap_idxs
        [some 1, some 1, some 1, none, none, none, some 1, some 1, some 1]
        [0, 86400000000000, 172800000000000, 259200000000000, 345600000000000,
         432000000000000, 522000000000000, 604800000000000, 691200000000000] 4 =
      List.replicate 9 false := by
  refine ⟨?_, ?_, by decide, by decide⟩
  · intro H dates maxGap i
    rw [get_small_gap_idxs_eq]
    rcases Nat.lt_or_ge i H.length with hi | hi
    · rw [markRanges_getD hi, List.any_eq_true]
      constructor
      · intro hex
        obtain ⟨p, hp, hcond⟩ := hex
        rw [decide_eq_true_eq] at hcond
        obtain ⟨h1, h2, h3, h4, h5, h6, h7⟩ := (sg_pairs_iff H dates maxGap p).mp hp
        have hp2len : p.2 < H.length := by
          by_contra hcon
          exact h4 (hget_of_ge H (by omega))
        have he1 : p.2 - 1 + 1 = p.2 := by omega
        have he2 : p.2 - 1 + 2 = p.2 + 1 := by omega
        refine ⟨p.1, p.2 - 1, hcond.1, by have := hcond.2; omega, h1, by omega,
          ?_, h3, ?_, ?_, ?_⟩
        · intro j hj1 hj2
          exact h5 j hj1 (by omega)
        · rw [he1]
          exact h4
        · rw [he1]
          exact h6
        · rw [he2]
          exact h7
      · intro hex
        obtain ⟨s, e, hsi, hie, hs1, hlen, hrun, hleft, hright, hmax, hctd⟩ := hex
        refine ⟨(s, e + 1), ?_, ?_⟩
        · rw [sg_pairs_iff]
          exact ⟨hs1, by omega, hleft, hright,
            fun j hj1 hj2 => hrun j hj1 (by omega), hmax, hctd⟩
        · rw [decide_eq_true_eq]
          exact ⟨hsi, Nat.lt_succ_of_le hie⟩
    · rw [markRanges_getD_ge hi]
      constructor
      · intro hcon
        exact (Bool.false_ne_true hcon).elim
      · intro hex
        obtain ⟨s, e, hsi, hie, hs1, hlen, -⟩ := hex
        exact absurd hlen (by omega)
  · intro m hm
    rcases hm with hm | hm <;> rw [hm] <;> decide

theorem C6_small_gap_mask_witness :
    get_small_gap_idxs
        [some 1, some 1, some 1, none, none, none, some 1, some 1, some 1]
        [0, 86400000000000, 172800000000000, 259200000000000, 345600000000000,
         432000000000000, 518400000000000, 604800000000000, 691200000000000] 3 =
      [false, false, false, true, true, true, false, false, false] :=
  C6_small_gap_mask.2.1 3 (Or.inl rfl)
